import Mathlib

/-!
Shallow embedding of `beetsplug/alternatives.py` (beets-alternatives plugin).

Paths are modelled as lists of components (a byte path `b"/a/b/c.mp3"` is
`["a", "b", "c.mp3"]`).  File modification times are naturals.  The host
library's black boxes (query predicates, the path template formatter) are
fields of the configuration record, mirroring `parse_config`.  Python values
stored in an item's flexible-attribute map are modelled by `Value`, which
distinguishes byte strings (the type `set_path` stores under Python 3) from
text strings and integers, so that the `path.decode('utf-8')` call in
`matched_item_action` can be modelled faithfully (it raises `AttributeError`
on non-bytes values).  Exceptions are modelled with `Except PyErr`.
-/

namespace Alt

/-- A filesystem path, as its list of components. -/
abbrev Path := List String

/-- A Python value stored in an item's flexible-attribute map.  `vbytes`
holds a byte-string path (what `set_path` stores under Python 3), `vstr` a
text string that denotes a path, `vint` an integer. -/
inductive Value where
  | vbytes (p : Path)
  | vstr (p : Path)
  | vint (n : Int)
deriving DecidableEq, Repr

/-- Python truthiness of a `Value` (`b''`, `''` and `0` are falsy). -/
def Value.truthy : Value → Bool
  | .vbytes p => !p.isEmpty
  | .vstr p => !p.isEmpty
  | .vint n => n != 0

/-- `v.decode('utf-8')` under Python 3: succeeds only on byte strings. -/
def Value.decodeUtf8 : Value → Option Path
  | .vbytes p => some p
  | _ => none

/-- The path a value denotes when used directly as an `os` path argument
(both `bytes` and `str` work there; an `int` does not). -/
def Value.asPath : Value → Option Path
  | .vbytes p => some p
  | .vstr p => some p
  | .vint _ => none

/-- Python exceptions that the embedded code can raise. -/
inductive PyErr where
  | keyError
  | attributeError
  | osError
  | fsError
  | typeError
deriving DecidableEq, Repr

/-- A library item: stable id, primary file path, audio metadata and the
flexible-attribute map (`beets.library.Item`). -/
structure Item where
  id : Nat
  path : Path
  bitrate : Nat
  format : String
  attrs : List (String × Value)
deriving DecidableEq, Repr

/-- An album: a grouping of items exposing an optional artwork path. -/
structure Album where
  id : Nat
  items : List Item
  artpath : Option Path
deriving DecidableEq, Repr

/-- The host library store: all items and all albums. -/
structure Lib where
  items : List Item
  albums : List Album
deriving DecidableEq, Repr

/-- Filesystem state: files (with their mtime) and directories. -/
structure FS where
  files : List (Path × Nat)
  dirs : List Path
deriving DecidableEq, Repr

/-- Look up a file's mtime (`os.path.getmtime`; `none` models `OSError`). -/
def FS.getmtime (fs : FS) (p : Path) : Option Nat :=
  (fs.files.find? (fun e => e.1 = p)).map Prod.snd

/-- `os.path.isfile`. -/
def FS.isfile (fs : FS) (p : Path) : Bool :=
  (fs.files.find? (fun e => e.1 = p)).isSome

/-- `os.path.isdir`. -/
def FS.isdir (fs : FS) (p : Path) : Bool :=
  fs.dirs.contains p

/-- `os.path.exists`. -/
def FS.existsAt (fs : FS) (p : Path) : Bool :=
  fs.isfile p || fs.isdir p

/-- Names of the direct children of directory `d` (`os.listdir`). -/
def FS.childNames (fs : FS) (d : Path) : List String :=
  (fs.files.map Prod.fst ++ fs.dirs).filterMap fun p =>
    match p.getLast? with
    | some l => if p.dropLast = d then some l else none
    | none => none

/-- Delete a file if present (`beets.util.remove` with `soft=True`). -/
def FS.removeFile (fs : FS) (p : Path) : FS :=
  { fs with files := fs.files.filter (fun e => e.1 ≠ p) }

/-- Create or overwrite the file at `p` with mtime `t`. -/
def FS.setFile (fs : FS) (p : Path) (t : Nat) : FS :=
  { fs with files := (p, t) :: fs.files.filter (fun e => e.1 ≠ p) }

/-- Remove a directory entry (`os.rmdir`; empty in all modelled uses). -/
def FS.rmdir (fs : FS) (d : Path) : FS :=
  { fs with dirs := fs.dirs.filter (fun e => e ≠ d) }

/-- The proper nonempty ancestors of `p` (`beets.util.ancestry`, without the
filesystem root): every nonempty strict prefix of `p`. -/
def properAncestors (p : Path) : List Path :=
  (List.range p.length).filterMap fun n =>
    if n = 0 then none else some (p.take n)

/-- `beets.util.mkdirall`: create every missing ancestor directory of `p`
(the parent chain, not `p` itself). -/
def FS.mkdirall (fs : FS) (p : Path) : FS :=
  { fs with dirs := fs.dirs ++ (properAncestors p).filter (fun d => !fs.dirs.contains d) }

/-- Boolean prefix test on component lists. -/
def isPre : Path → Path → Bool
  | [], _ => true
  | _ :: _, [] => false
  | a :: as, b :: bs => a = b && isPre as bs

/-- The chain handed to `beets.util.prune_dirs(path, root)`: `path` and its
strict ancestors strictly below `root`, deepest first.  Empty when `root` is
not a strict prefix of `path`. -/
def ancestorChain (root p : Path) : List Path :=
  if isPre root p && root.length < p.length then
    ((List.range (p.length - root.length)).map fun n => p.take (p.length - n))
  else []

/-- Modelled from the spec: the consumed filesystem primitive
`pruneEmptyAncestors(path, stopAt=root)` (`beets.util.prune_dirs`, an
external collaborator).  Walk the ancestor chain of `p` below `root` from
the deepest entry up; skip entries that do not exist, remove empty
directories, and stop at the first non-empty one.  `root` itself is never
removed. -/
def pruneChain (fs : FS) : List Path → FS
  | [] => fs
  | d :: ds =>
    if fs.existsAt d then
      if fs.childNames d = [] && !fs.isfile d then pruneChain (fs.rmdir d) ds
      else fs
    else pruneChain fs ds

/-- `beets.util.prune_dirs(p, root)`. -/
def FS.pruneDirs (fs : FS) (p root : Path) : FS :=
  pruneChain fs (ancestorChain root p)

/-- `beets.util.move(path, dest)` (default `replace=False`): error when the
source is missing or the destination already exists; the mtime moves with
the file. -/
def FS.moveFile (fs : FS) (src dst : Path) : Except PyErr FS :=
  if src = dst then .ok fs
  else
    match (fs.files.find? (fun e => e.1 = src)).map Prod.snd with
    | none => .error .osError
    | some t =>
      if fs.isfile dst then .error .fsError
      else .ok ((fs.removeFile src).setFile dst t)

/-- `beets.util.copy(src, dst, replace=True)` (`shutil.copyfile`): error
when the source is missing; the copy's mtime is the current time `now`. -/
def FS.copyFile (fs : FS) (src dst : Path) (now : Nat) : Except PyErr FS :=
  if fs.isfile src then .ok (fs.setFile dst now) else .error .osError

/-- `item.write(path=p)`: rewrite tags into the file at `p`, bumping its
mtime to the current time `now`; error when the file is missing. -/
def FS.writeTags (fs : FS) (p : Path) (now : Nat) : Except PyErr FS :=
  if fs.isfile p then .ok (fs.setFile p now) else .error .osError

/-- CPython's `posixpath.splitext` on a single path component: split off the
extension at the last dot, unless every character before that dot is a dot. -/
def pySplitExt (s : String) : String × String :=
  let cs := s.toList
  match cs.reverse.findIdx? (fun c => c = '.') with
  | none => (s, "")
  | some r =>
    let i := cs.length - 1 - r
    if (cs.take i).any (fun c => c ≠ '.') then
      (String.mk (cs.take i), String.mk (cs.drop i))
    else (s, "")

/-- The extension (with leading dot) of a path component. -/
def extOf (s : String) : String := (pySplitExt s).2

/-- `os.path.splitext(dest)[0] + b'.' + ext` on a whole path: replace the
extension of the last component. -/
def replaceExtLast : Path → String → Path
  | [], ext => ["." ++ ext]
  | [x], ext => [(pySplitExt x).1 ++ "." ++ ext]
  | x :: y :: xs, ext => x :: replaceExtLast (y :: xs) ext

/-- The possible reconciliation actions (`External.ADD` … `External.NOOP`). -/
inductive Action where
  | ADD
  | REMOVE
  | WRITE
  | MOVE
  | NOOP
deriving DecidableEq, Repr

/-- One observable effect of a run: a filesystem operation or the skip
report of `External.update`. -/
inductive Eff where
  | skipped (d : Path)
  | mkdirs (p : Path)
  | moved (src dst : Path)
  | pruned (p : Path)
  | removedFile (p : Path)
  | wroteTags (p : Path)
  | copied (src dst : Path)
  | linked (target link : Path)
deriving DecidableEq, Repr

/-- The resolved configuration of an `External` collection
(`External.parse_config`): the namespaced attribute key, the query
predicates (black-box `self.query.match` on items and on albums), the
companion-art extensions, flags, the absolute target directory and the
path-template formatter (black-box `item.destination`, giving the relative
path below the target directory). -/
structure External where
  path_key : String
  queryItem : Item → Bool
  queryAlbum : Album → Bool
  other_ext : List String
  copy_albumart : Bool
  removable : Bool
  directory : Path
  pathFmt : Item → Path

/-- `External.destination`: the desired destination of an item. -/
def External.destination (c : External) (item : Item) : Path :=
  c.directory ++ c.pathFmt item

/-- `External.get_path` (Python 3 branch): the raw recorded attribute value,
`none` on `KeyError`. -/
def External.get_path (c : External) (item : Item) : Option Value :=
  (item.attrs.find? (fun e => e.1 = c.path_key)).map Prod.snd

/-- `External.set_path` (Python 3 branch): store the byte path. -/
def External.set_path (c : External) (item : Item) (p : Path) : Item :=
  { item with attrs := (c.path_key, Value.vbytes p) :: item.attrs.filter (fun e => e.1 ≠ c.path_key) }

/-- `External.matched_item_action`, for an item in the matched set:
decode the recorded path (raising `AttributeError` on a non-bytes value),
then ADD when it is absent, empty or no file exists there; else MOVE when it
differs from the destination; else WRITE when the alternative file is older
than the primary file; else NOOP. -/
def External.matched_item_action (c : External) (fs : FS) (item : Item) :
    Except PyErr Action :=
  match c.get_path item with
  | none => .ok .ADD
  | some v =>
    match v.decodeUtf8 with
    | none => .error .attributeError
    | some p =>
      if !p.isEmpty && fs.isfile p then
        let dest := c.destination item
        if p ≠ dest then .ok .MOVE
        else
          match fs.getmtime dest, fs.getmtime item.path with
          | some md, some ms => if md < ms then .ok .WRITE else .ok .NOOP
          | _, _ => .error .osError
      else .ok .ADD

/-- The ids collected from albums matching the query
(`items_action`'s `matched_ids` loop). -/
def matchedIds (c : External) (lib : Lib) : List Nat :=
  (lib.albums.filter c.queryAlbum).flatMap fun a => a.items.map Item.id

/-- Whether an item is in the matched set: member of a matched album, or
matched directly by the query. -/
def isMatched (c : External) (mids : List Nat) (item : Item) : Bool :=
  mids.contains item.id || c.queryItem item

/-- The classification of one item inside `External.items_action`: matched
items go through `matched_item_action`; unmatched items yield REMOVE when
their recorded attribute value is truthy, and nothing otherwise. -/
def classifyOne (c : External) (mids : List Nat) (fs : FS) (item : Item) :
    Except PyErr (Option Action) :=
  if isMatched c mids item then
    (c.matched_item_action fs item).map some
  else
    match c.get_path item with
    | some v => if v.truthy then .ok (some .REMOVE) else .ok none
    | none => .ok none

/-- The item loop of `External.items_action` over a fixed filesystem
state. -/
def classifyAll (c : External) (mids : List Nat) (fs : FS) :
    List Item → Except PyErr (List (Item × Action))
  | [] => .ok []
  | i :: rest =>
    match classifyOne c mids fs i with
    | .error e => .error e
    | .ok none => classifyAll c mids fs rest
    | .ok (some a) =>
      match classifyAll c mids fs rest with
      | .error e => .error e
      | .ok l => .ok ((i, a) :: l)

/-- `External.items_action`, fully forced against one filesystem state. -/
def items_action (c : External) (lib : Lib) (fs : FS) :
    Except PyErr (List (Item × Action)) :=
  classifyAll c (matchedIds c lib) fs lib.items

/-- The deletion loop of `External.remove_albumart`: remove each listed
entry of directory `d` (`util.remove` raises on a directory entry). -/
def rmEntries (d : Path) (fs : FS) (effs : List Eff) :
    List String → Except PyErr (FS × List Eff)
  | [] => .ok (fs, effs)
  | f :: rest =>
    let q := d ++ [f]
    if fs.isfile q then rmEntries d (fs.removeFile q) (effs ++ [.removedFile q]) rest
    else if fs.isdir q then .error .osError
    else rmEntries d fs effs rest

/-- `External.remove_albumart`: list the directory containing `p` —
`os.listdir` raises `FileNotFoundError`/`NotADirectoryError` when that
directory does not exist; if every entry has a companion-art extension,
delete them all; otherwise delete nothing. -/
def External.remove_albumart (c : External) (fs : FS) (p : Path) :
    Except PyErr (FS × List Eff) :=
  if fs.isdir p.dropLast then
    if (fs.childNames p.dropLast).all (fun f => c.other_ext.contains (extOf f)) then
      rmEntries p.dropLast fs [] (fs.childNames p.dropLast)
    else .ok (fs, [])
  else .error .osError

/-- `External.remove_item`: delete the file at the recorded path, run the
companion-art cleanup, prune the now-empty ancestor chain up to the
collection root, and delete the recorded attribute. -/
def External.remove_item (c : External) (fs : FS) (item : Item) :
    Except PyErr (FS × Item × List Eff) :=
  match c.get_path item with
  | none => .error .keyError
  | some v =>
    match v.asPath with
    | none => .error .typeError
    | some p =>
      let e0 : List Eff := if fs.isfile p then [.removedFile p] else []
      let fs1 := fs.removeFile p
      match c.remove_albumart fs1 p with
      | .error e => .error e
      | .ok (fs2, e1) =>
        let fs3 := fs2.pruneDirs p c.directory
        let item' := { item with attrs := item.attrs.filter (fun e => e.1 ≠ c.path_key) }
        .ok (fs3, item', e0 ++ e1 ++ [.pruned p])

/-- `External.ask_create`: non-removable collections are always created;
otherwise an explicit `--create`/`--no-create` flag decides, and the
interactive prompt's answer decides last. -/
def External.ask_create (c : External) (create : Option Bool) (promptYes : Bool) : Bool :=
  if !c.removable then true
  else match create with
    | some b => b
    | none => promptYes

/-- The result state of a run: the (possibly updated) library items, the
filesystem, the effect trace, and the exception that aborted the run, if
any. -/
structure RunResult where
  items : List Item
  fs : FS
  effs : List Eff
  err : Option PyErr
deriving DecidableEq, Repr

/-- One pass of the `for (item, action) in self.items_action()` loop of
`External.update`: classify the item against the current filesystem and
apply the direct effect (MOVE/WRITE/REMOVE); ADD items are appended to the
submission list.  Returns the updated item, filesystem, effects, pending
list, or the exception that aborted the run. -/
def External.stepItem (c : External) (mids : List Nat) (now : Nat) (fs : FS)
    (pending : List Item) (item : Item) :
    Except PyErr (Item × FS × List Eff × List Item) :=
  match classifyOne c mids fs item with
  | .error e => .error e
  | .ok none => .ok (item, fs, [], pending)
  | .ok (some a) =>
    let dest := c.destination item
    match a with
    | .MOVE =>
      match (c.get_path item).bind Value.asPath with
      | none => .error .keyError
      | some p =>
        let fs1 := fs.mkdirall dest
        match fs1.moveFile p dest with
        | .error e => .error e
        | .ok fs2 =>
          let fs3 := fs2.pruneDirs p.dropLast c.directory
          let item' := c.set_path item dest
          match fs3.writeTags dest now with
          | .error e => .error e
          | .ok fs4 =>
            .ok (item', fs4, [.mkdirs dest, .moved p dest, .pruned p.dropLast, .wroteTags dest], pending)
    | .WRITE =>
      match (c.get_path item).bind Value.asPath with
      | none => .error .keyError
      | some p =>
        match fs.writeTags p now with
        | .error e => .error e
        | .ok fs1 => .ok (item, fs1, [.wroteTags p], pending)
    | .ADD => .ok (item, fs, [], pending ++ [item])
    | .REMOVE =>
      match c.remove_item fs item with
      | .error e => .error e
      | .ok (fs1, item', effs) => .ok (item', fs1, effs, pending)
    | .NOOP => .ok (item, fs, [], pending)

/-- The item loop of `External.update`, interleaving classification and
direct effects exactly as the lazily-consumed `items_action` generator does.
On an exception the remaining items pass through untouched and the
exception is recorded. -/
def External.runItems (c : External) (mids : List Nat) (now : Nat) :
    List Item → FS → List Item → List Eff → (List Item × FS × List Item × List Eff × Option PyErr)
  | [], fs, pending, effs => ([], fs, pending, effs, none)
  | i :: rest, fs, pending, effs =>
    match c.stepItem mids now fs pending i with
    | .error e => (i :: rest, fs, pending, effs, some e)
    | .ok (i', fs', effs', pending') =>
      let (is, fs2, pending2, effs2, err) := runItems c mids now rest fs' pending' (effs ++ effs')
      (i' :: is, fs2, pending2, effs2, err)

/-- The `_convert` job of `External.converter`: create the destination's
ancestor directories and copy the primary file over, returning the
destination. -/
def External.convertJob (c : External) (now : Nat) (fs : FS) (item : Item) :
    Except PyErr (FS × Path × List Eff) :=
  let dest := c.destination item
  let fs1 := fs.mkdirall dest
  match fs1.copyFile item.path dest now with
  | .error e => .error e
  | .ok fs2 => .ok (fs2, dest, [.mkdirs dest, .copied item.path dest])

/-- The harvest loop of `External.update`: run the submitted jobs in the
given completion order; each completed `(item, dest)` pair sets and persists
the item's recorded path.  The first exception aborts the loop, leaving
later results unpersisted. -/
def External.runJobs (c : External) (now : Nat) :
    List Item → List Item → FS → List Eff → (List Item × FS × List Eff × Option PyErr)
  | [], items, fs, effs => (items, fs, effs, none)
  | j :: rest, items, fs, effs =>
    match c.convertJob now fs j with
    | .error e => (items, fs, effs, some e)
    | .ok (fs', dest, effs') =>
      let items' := items.map fun it => if it.id = j.id then c.set_path it dest else it
      runJobs c now rest items' fs' (effs ++ effs')

/-- `External.update`: skip (reporting it) when the target directory is
missing and its creation is declined; otherwise run the item loop and then
harvest the submitted jobs in the completion order chosen by `reorder` (the
thread pool completes jobs in an unspecified order). -/
def External.update (c : External) (create : Option Bool) (promptYes : Bool)
    (now : Nat) (reorder : List Item → List Item) (lib : Lib) (fs : FS) : RunResult :=
  if !fs.isdir c.directory && !c.ask_create create promptYes then
    ⟨lib.items, fs, [.skipped c.directory], none⟩
  else
    let mids := matchedIds c lib
    let (items1, fs1, pending, effs1, err) := c.runItems mids now lib.items fs [] []
    match err with
    | some e => ⟨items1, fs1, effs1, some e⟩
    | none =>
      let (items2, fs2, effs2, err2) := c.runJobs now (reorder pending) items1 fs1 effs1
      ⟨items2, fs2, effs2, err2⟩

/-- `SymlinkView.create_symlink`: create the destination's ancestors and a
symbolic link to the primary file.  The link is a file entry carrying the
target's mtime when the target exists (`isfile` follows links; a dangling
link is not a file). -/
def SymlinkView.create_symlink (c : External) (fs : FS) (item : Item) :
    Except PyErr (FS × List Eff) :=
  let dest := c.destination item
  let fs1 := fs.mkdirall dest
  if fs1.existsAt dest then .error .osError
  else
    let fs2 :=
      match fs1.getmtime item.path with
      | some t => fs1.setFile dest t
      | none => fs1
    .ok (fs2, [.mkdirs dest, .linked item.path dest])

/-- One pass of the `SymlinkView.update` loop: MOVE removes the old entry
and re-links; ADD links; REMOVE removes; WRITE and NOOP do nothing. -/
def SymlinkView.stepItem (c : External) (mids : List Nat) (fs : FS) (item : Item) :
    Except PyErr (Item × FS × List Eff) :=
  match classifyOne c mids fs item with
  | .error e => .error e
  | .ok none => .ok (item, fs, [])
  | .ok (some a) =>
    let dest := c.destination item
    match a with
    | .MOVE =>
      match c.remove_item fs item with
      | .error e => .error e
      | .ok (fs1, item1, effs1) =>
        match SymlinkView.create_symlink c fs1 item with
        | .error e => .error e
        | .ok (fs2, effs2) => .ok (c.set_path item1 dest, fs2, effs1 ++ effs2)
    | .ADD =>
      match SymlinkView.create_symlink c fs item with
      | .error e => .error e
      | .ok (fs1, effs1) => .ok (c.set_path item dest, fs1, effs1)
    | .REMOVE =>
      match c.remove_item fs item with
      | .error e => .error e
      | .ok (fs1, item1, effs1) => .ok (item1, fs1, effs1)
    | _ => .ok (item, fs, [])

/-- `SymlinkView.update`: the item loop, with no target-directory existence
check and no job pool (the `create` argument is ignored). -/
def SymlinkView.update (c : External) (_create : Option Bool) (lib : Lib) (fs : FS) :
    RunResult :=
  let mids := matchedIds c lib
  let rec go : List Item → FS → List Eff → (List Item × FS × List Eff × Option PyErr)
    | [], fs, effs => ([], fs, effs, none)
    | i :: rest, fs, effs =>
      match SymlinkView.stepItem c mids fs i with
      | .error e => (i :: rest, fs, effs, some e)
      | .ok (i', fs', effs') =>
        let (is, fs2, effs2, err) := go rest fs' (effs ++ effs')
        (i' :: is, fs2, effs2, err)
  let (items1, fs1, effs1, err) := go lib.items fs []
  ⟨items1, fs1, effs1, err⟩

/-- The resolved configuration of an `ExternalConvert` collection: the
`External` fields plus the lower-cased format list, the primary target
extension from `convert.get_format(formats[0])`, the bitrate cap and the
evaluated `convert_when` expression (a black-box boolean over `bitrate`,
`maxbr`, `fmt` and `allowed_fmt`, as `eval` produces). -/
structure ExternalConvert extends External where
  formats : List String
  ext : String
  maxbr : Nat
  convert_when : Nat → Nat → String → List String → Bool

/-- The `convert_when` configuration step of `parse_config`: an absent
option means the expression string `'True'`, whose evaluation is constantly
true. -/
def parseConvertWhen (cfgVal : Option (Nat → Nat → String → List String → Bool)) :
    Nat → Nat → String → List String → Bool :=
  match cfgVal with
  | some f => f
  | none => fun _ _ _ _ => true

/-- `ExternalConvert.should_transcode`: evaluate `convert_when` over the
item's bitrate, the configured cap, the lower-cased format and the allowed
format list. -/
def ExternalConvert.should_transcode (c : ExternalConvert) (item : Item) : Bool :=
  c.convert_when item.bitrate c.maxbr item.format.toLower c.formats

/-- `ExternalConvert.destination`: the plain destination, with its extension
replaced by the target format's extension exactly when the item will be
transcoded. -/
def ExternalConvert.destination (c : ExternalConvert) (item : Item) : Path :=
  let dest := c.toExternal.destination item
  if c.should_transcode item then replaceExtLast dest c.ext
  else dest

/-- Decidable equality of `Except` results. -/
instance {α β : Type} [DecidableEq α] [DecidableEq β] : DecidableEq (Except α β) :=
  fun x y =>
    match x, y with
    | .ok a, .ok b => decidable_of_iff (a = b) (by simp)
    | .error a, .error b => decidable_of_iff (a = b) (by simp)
    | .ok _, .error _ => .isFalse (by simp)
    | .error _, .ok _ => .isFalse (by simp)

/-- A submitted job and its outcome: the item and the produced destination,
or the exception the job raised. -/
abbrev Job := Item × Except PyErr Path

/-- The `Worker` thread pool: the set of submitted, not yet harvested
futures, and the shutdown flag. -/
structure Worker where
  tasks : List Job
  down : Bool
deriving DecidableEq, Repr

/-- `Worker.submit`: enqueue a job (each call creates a fresh future). -/
def Worker.submit (w : Worker) (j : Job) : Worker :=
  { w with tasks := w.tasks ++ [j] }

/-- `Worker.shutdown`. -/
def Worker.shutdown (w : Worker) : Worker :=
  { w with down := true }

/-- Removal of one future from the task set (`self._tasks.remove(f)`). -/
def eraseJob : List Job → Job → List Job
  | [], _ => []
  | x :: xs, j => if x = j then xs else x :: eraseJob xs j

/-- `Worker.as_completed`, consumed against a completion order: each future
is removed from the task set and its result yielded; a job's exception is
re-raised at the consumer, ending the iteration. -/
def Worker.drainAll (w : Worker) : List Job → Except PyErr (List (Item × Path)) × Worker
  | [] => (.ok [], w)
  | j :: rest =>
    let w1 := { w with tasks := eraseJob w.tasks j }
    match j.2 with
    | .error e => (.error e, w1)
    | .ok p =>
      match Worker.drainAll w1 rest with
      | (.error e, w2) => (.error e, w2)
      | (.ok l, w2) => (.ok ((j.1, p) :: l), w2)

/-! Helper lemmas about the filesystem model. -/

theorem isfile_iff_getmtime (fs : FS) (p : Path) :
    fs.isfile p = true ↔ ∃ t, fs.getmtime p = some t := by
  unfold FS.isfile FS.getmtime
  cases fs.files.find? (fun e => e.1 = p) <;> simp

theorem isEmpty_false_of_ne_nil {p : Path} (h : p ≠ []) : p.isEmpty = false := by
  cases p with
  | nil => exact absurd rfl h
  | cons a as => rfl

theorem find?_ptwise {α : Type} (l : List α) (f g : α → Bool) (h : ∀ a, f a = g a) :
    l.find? f = l.find? g := by
  induction l with
  | nil => rfl
  | cons hd tl ih => rw [List.find?, List.find?, h hd, ih]

theorem find?_key_filter_ne (l : List (Path × Nat)) (p q : Path) (h : q ≠ p) :
    (l.filter (fun e => e.1 ≠ p)).find? (fun e => e.1 = q)
      = l.find? (fun e => e.1 = q) := by
  rw [List.find?_filter]
  apply find?_ptwise
  intro a
  by_cases ha : a.1 = q
  · have hap : a.1 ≠ p := by rw [ha]; exact h
    simp [ha, hap, h]
  · simp [ha]

theorem getmtime_setFile (fs : FS) (p : Path) (t : Nat) (q : Path) :
    (fs.setFile p t).getmtime q = if q = p then some t else fs.getmtime q := by
  unfold FS.setFile FS.getmtime
  by_cases h : q = p
  · subst h
    simp [List.find?]
  · have hh : (decide (p = q)) = false := by
      simp only [decide_eq_false_iff_not]
      exact fun hc => h hc.symm
    simp only [if_neg h, List.find?, hh, find?_key_filter_ne fs.files p q h]

theorem getmtime_removeFile (fs : FS) (p q : Path) :
    (fs.removeFile p).getmtime q = if q = p then none else fs.getmtime q := by
  unfold FS.removeFile FS.getmtime
  by_cases h : q = p
  · subst h
    have hnone : (fs.files.filter (fun e => e.1 ≠ q)).find? (fun e => e.1 = q) = none := by
      rw [List.find?_eq_none]
      intro e he
      have h1 := List.of_mem_filter he
      simp only [decide_eq_true_eq] at h1 ⊢
      exact h1
    simp [hnone]
  · rw [if_neg h, find?_key_filter_ne fs.files p q h]

theorem isfile_eq_isSome (fs : FS) (q : Path) :
    fs.isfile q = (fs.getmtime q).isSome := by
  unfold FS.isfile FS.getmtime
  cases fs.files.find? (fun e => e.1 = q) <;> simp

theorem isfile_setFile (fs : FS) (p : Path) (t : Nat) (q : Path) :
    (fs.setFile p t).isfile q = (decide (q = p) || fs.isfile q) := by
  rw [isfile_eq_isSome, getmtime_setFile, isfile_eq_isSome]
  by_cases h : q = p <;> simp [h]

theorem isfile_removeFile (fs : FS) (p q : Path) :
    (fs.removeFile p).isfile q = (decide (q ≠ p) && fs.isfile q) := by
  rw [isfile_eq_isSome, getmtime_removeFile, isfile_eq_isSome]
  by_cases h : q = p <;> simp [h]

theorem files_mkdirall (fs : FS) (p : Path) : (fs.mkdirall p).files = fs.files := rfl

theorem isfile_mkdirall (fs : FS) (p q : Path) : (fs.mkdirall p).isfile q = fs.isfile q := rfl

theorem getmtime_mkdirall (fs : FS) (p q : Path) : (fs.mkdirall p).getmtime q = fs.getmtime q := rfl

theorem files_rmdir (fs : FS) (d : Path) : (fs.rmdir d).files = fs.files := rfl

theorem files_pruneChain (ds : List Path) (fs : FS) :
    (pruneChain fs ds).files = fs.files := by
  induction ds generalizing fs with
  | nil => rfl
  | cons d rest ih =>
    unfold pruneChain
    by_cases hex : fs.existsAt d = true
    · by_cases hempty : (fs.childNames d = [] && !fs.isfile d) = true
      · simp [hex, hempty, ih, FS.rmdir]
      · simp [hex, hempty]
    · simp only [Bool.not_eq_true] at hex
      simp [hex, ih]

theorem files_pruneDirs (fs : FS) (p root : Path) :
    (fs.pruneDirs p root).files = fs.files :=
  files_pruneChain _ fs

theorem getmtime_pruneDirs (fs : FS) (p root q : Path) :
    (fs.pruneDirs p root).getmtime q = fs.getmtime q := by
  unfold FS.getmtime
  rw [files_pruneDirs]

theorem isfile_pruneDirs (fs : FS) (p root q : Path) :
    (fs.pruneDirs p root).isfile q = fs.isfile q := by
  unfold FS.isfile
  rw [files_pruneDirs]

/-! Concrete instances used by witnesses and counterexamples. -/

/-- A concrete configuration: match-all query, destination `alt/<id>.mp3`. -/
def cW : External :=
  ⟨"alt.test", fun _ => true, fun _ => false, [".jpg", ".jpeg", ".png"], true, true,
    ["alt"], fun i => [toString i.id ++ ".mp3"]⟩

/-- A concrete filesystem: a primary file, a stale tracked file at an old
location, and the collection root. -/
def fsW : FS :=
  ⟨[(["lib", "a.mp3"], 5), (["alt", "old.mp3"], 1)], [["alt"]]⟩

/-- A concrete item recorded at `alt/old.mp3` (differing from its
destination `alt/1.mp3`) whose file is also stale. -/
def itW : Item :=
  ⟨1, ["lib", "a.mp3"], 320, "MP3", [("alt.test", Value.vbytes ["alt", "old.mp3"])]⟩

/-- C1.  For an item in the matched set, `matched_item_action` decides in
this fixed order: recorded path absent (or empty) or no file on disk → ADD;
else recorded path differs from the destination → MOVE (with no staleness
condition, so MOVE wins even when the file is also stale); else alternative
file strictly older than the primary file → WRITE; else NOOP. -/
theorem C1_matched_item_action_order (c : External) (fs : FS) (item : Item) :
    (c.get_path item = none → c.matched_item_action fs item = .ok .ADD)
    ∧ (∀ p, c.get_path item = some (.vbytes p) → (p = [] ∨ fs.isfile p = false) →
        c.matched_item_action fs item = .ok .ADD)
    ∧ (∀ p, c.get_path item = some (.vbytes p) → p ≠ [] → fs.isfile p = true →
        p ≠ c.destination item → c.matched_item_action fs item = .ok .MOVE)
    ∧ (∀ p md ms, c.get_path item = some (.vbytes p) → p ≠ [] → fs.isfile p = true →
        p = c.destination item → fs.getmtime p = some md →
        fs.getmtime item.path = some ms → md < ms →
        c.matched_item_action fs item = .ok .WRITE)
    ∧ (∀ p md ms, c.get_path item = some (.vbytes p) → p ≠ [] → fs.isfile p = true →
        p = c.destination item → fs.getmtime p = some md →
        fs.getmtime item.path = some ms → ¬ md < ms →
        c.matched_item_action fs item = .ok .NOOP) := by
  refine ⟨?_, ?_, ?_, ?_, ?_⟩
  · intro h
    simp [External.matched_item_action, h]
  · intro p hp hcase
    rcases hcase with h | h
    · subst h
      simp [External.matched_item_action, hp, Value.decodeUtf8]
    · simp [External.matched_item_action, hp, Value.decodeUtf8, h]
  · intro p hp hne hfile hdiff
    simp [External.matched_item_action, hp, Value.decodeUtf8, hfile,
      isEmpty_false_of_ne_nil hne, hdiff]
  · intro p md ms hp hne hfile heq hmd hms hlt
    subst heq
    simp [External.matched_item_action, hp, Value.decodeUtf8, hfile,
      isEmpty_false_of_ne_nil hne, hmd, hms, hlt]
  · intro p md ms hp hne hfile heq hmd hms hlt
    subst heq
    simp [External.matched_item_action, hp, Value.decodeUtf8, hfile,
      isEmpty_false_of_ne_nil hne, hmd, hms, hlt]

/-- Witness for C1: on the concrete stale, relocated item the action is
MOVE, not WRITE. -/
theorem C1_witness : cW.matched_item_action fsW itW = .ok .MOVE :=
  (C1_matched_item_action_order cW fsW itW).2.2.1 ["alt", "old.mp3"]
    (by decide) (by decide) (by decide) (by decide)

/-- Counterexample for C8: a recorded attribute of unexpected type (here an
integer) makes classification of a matched item raise `AttributeError` at
the `path.decode('utf-8')` call instead of falling through to ADD. -/
theorem C8_counterexample :
    cW.matched_item_action fsW ⟨3, ["lib", "c.mp3"], 128, "MP3", [("alt.test", Value.vint 7)]⟩
      = .error .attributeError
    ∧ cW.matched_item_action fsW ⟨3, ["lib", "c.mp3"], 128, "MP3", [("alt.test", Value.vint 7)]⟩
      ≠ .ok .ADD := by
  constructor
  · decide
  · decide

/-- C8 as amended: an absent recorded attribute falls through to ADD, but a
present attribute whose value cannot be decoded as a byte path (unexpected
type) raises `AttributeError` during classification instead of being
treated as absent. -/
theorem C8_absent_add_typed_raises (c : External) (fs : FS) (item : Item) :
    (c.get_path item = none → c.matched_item_action fs item = .ok .ADD)
    ∧ (∀ v, c.get_path item = some v → v.decodeUtf8 = none →
        c.matched_item_action fs item = .error .attributeError) := by
  constructor
  · intro h
    simp [External.matched_item_action, h]
  · intro v hv hdec
    simp [External.matched_item_action, hv, hdec]

/-- Witness for C8's amended statement. -/
theorem C8_witness :
    cW.matched_item_action fsW ⟨4, ["lib", "d.mp3"], 128, "MP3", []⟩ = .ok .ADD :=
  (C8_absent_add_typed_raises cW fsW ⟨4, ["lib", "d.mp3"], 128, "MP3", []⟩).1 (by decide)

/-- C10.  An item whose recorded attribute is present but equal to the empty
byte string is treated as untracked: when matched it classifies ADD whatever
the filesystem contains; when unmatched it yields no action at all, and the
update loop passes it through with the empty attribute left unchanged. -/
theorem C10_empty_path (c : External) (mids : List Nat) (fs : FS) (item : Item)
    (hp : c.get_path item = some (Value.vbytes [])) :
    (isMatched c mids item = true → classifyOne c mids fs item = .ok (some .ADD))
    ∧ (isMatched c mids item = false → classifyOne c mids fs item = .ok none)
    ∧ (∀ now pending, isMatched c mids item = false →
        c.stepItem mids now fs pending item = .ok (item, fs, [], pending)) := by
  refine ⟨?_, ?_, ?_⟩
  · intro hm
    simp [classifyOne, hm, External.matched_item_action, hp, Value.decodeUtf8, Except.map]
  · intro hm
    simp [classifyOne, hm, hp, Value.truthy]
  · intro now pending hm
    simp [External.stepItem, classifyOne, hm, hp, Value.truthy]

/-- Witness for C10: matched ADD (despite a file existing on disk at other
paths), and unmatched pass-through. -/
theorem C10_witness :
    classifyOne cW [] fsW ⟨5, ["lib", "e.mp3"], 128, "MP3", [("alt.test", Value.vbytes [])]⟩
      = .ok (some .ADD) :=
  (C10_empty_path cW [] fsW ⟨5, ["lib", "e.mp3"], 128, "MP3", [("alt.test", Value.vbytes [])]⟩
    (by decide)).1 (by decide)

/-- C4.  The transcoding strategy's destination tracks eligibility: when
`convert_when` evaluates false the destination is the plain-copy
destination; when it evaluates true the plain-copy destination gets its
extension replaced by the primary target format's extension; and the
default `convert_when` (absent from the configuration) evaluates true
everywhere. -/
theorem C4_transcode_destination (c : ExternalConvert) (item : Item) :
    (c.should_transcode item = false → c.destination item = c.toExternal.destination item)
    ∧ (c.should_transcode item = true →
        c.destination item = replaceExtLast (c.toExternal.destination item) c.ext)
    ∧ (∀ b m f al, parseConvertWhen none b m f al = true) := by
  refine ⟨?_, ?_, ?_⟩
  · intro h
    simp [ExternalConvert.destination, h]
  · intro h
    simp [ExternalConvert.destination, h]
  · intro b m f al
    rfl

/-- For a matched item with a well-typed recorded value and an existing
primary file, `matched_item_action` returns one of the four matched-set
actions (it never raises and never returns REMOVE). -/
theorem matched_item_action_total (c : External) (fs : FS) (item : Item)
    (hv : ∀ v, c.get_path item = some v → v.decodeUtf8.isSome = true)
    (hsrc : fs.isfile item.path = true) :
    ∃ a, c.matched_item_action fs item = .ok a
      ∧ (a = .NOOP ∨ a = .ADD ∨ a = .MOVE ∨ a = .WRITE) := by
  unfold External.matched_item_action
  cases hgp : c.get_path item with
  | none => exact ⟨.ADD, rfl, by simp⟩
  | some v =>
    cases hdec : v.decodeUtf8 with
    | none => simp [hgp, hdec] at hv ⊢
    | some p =>
      simp only [hgp, hdec]
      by_cases hex : (!p.isEmpty && fs.isfile p) = true
      · simp only [hex, if_pos rfl]
        by_cases hdiff : p ≠ c.destination item
        · exact ⟨.MOVE, by simp [hex, hdiff], by simp⟩
        · have hfile : fs.isfile p = true := by
            cases hra : fs.isfile p with
            | true => rfl
            | false => simp [hra] at hex
          obtain ⟨md, hmd⟩ := (isfile_iff_getmtime fs p).mp hfile
          obtain ⟨ms, hms⟩ := (isfile_iff_getmtime fs item.path).mp hsrc
          have hpd : p = c.destination item := by
            by_contra hc
            exact hdiff hc
          by_cases hlt : md < ms
          · refine ⟨.WRITE, ?_, by simp⟩
            simp [hex, hdiff, ← hpd, hmd, hms, hlt]
          · refine ⟨.NOOP, ?_, by simp⟩
            simp [hex, hdiff, ← hpd, hmd, hms, hlt]
      · refine ⟨.ADD, ?_, by simp⟩
        simp only [Bool.not_eq_true] at hex
        simp [hex]

/-- When every item classifies without an exception, the `items_action`
loop yields exactly the classification of each item, in library order. -/
theorem classifyAll_ok (c : External) (mids : List Nat) (fs : FS) (l : List Item)
    (h : ∀ i ∈ l, ∃ o, classifyOne c mids fs i = .ok o) :
    classifyAll c mids fs l = .ok (l.filterMap fun i =>
      match classifyOne c mids fs i with
      | .ok (some a) => some (i, a)
      | _ => none) := by
  induction l with
  | nil => rfl
  | cons i rest ih =>
    obtain ⟨o, ho⟩ := h i (by simp)
    have ih' := ih fun j hj => h j (by simp [hj])
    cases o with
    | none => simp [classifyAll, ho, ih']
    | some a => simp [classifyAll, ho, ih']

/-- C2 as amended: for a library whose recorded values are byte-typed and
whose items' primary files exist, classification is total and exclusive —
a matched item (directly or through a matched album) gets exactly one
action among NOOP, ADD, MOVE, WRITE; an unmatched item with a truthy
recorded path gets REMOVE; an unmatched item with an absent or falsy
recorded path yields nothing; and the `items_action` loop emits exactly
one entry per classified item.  Outside those conditions classification
can raise instead (see the counterexample). -/
theorem C2_classification_total (c : External) (lib : Lib) (fs : FS)
    (hv : ∀ i ∈ lib.items, ∀ v, c.get_path i = some v → v.decodeUtf8.isSome = true)
    (hsrc : ∀ i ∈ lib.items, fs.isfile i.path = true) :
    (∀ i ∈ lib.items,
      (isMatched c (matchedIds c lib) i = true →
        ∃ a, classifyOne c (matchedIds c lib) fs i = .ok (some a)
          ∧ (a = .NOOP ∨ a = .ADD ∨ a = .MOVE ∨ a = .WRITE))
      ∧ (isMatched c (matchedIds c lib) i = false →
          (∀ v, c.get_path i = some v → v.truthy = true →
            classifyOne c (matchedIds c lib) fs i = .ok (some .REMOVE))
          ∧ (c.get_path i = none → classifyOne c (matchedIds c lib) fs i = .ok none)
          ∧ (∀ v, c.get_path i = some v → v.truthy = false →
            classifyOne c (matchedIds c lib) fs i = .ok none)))
    ∧ items_action c lib fs = .ok (lib.items.filterMap fun i =>
        match classifyOne c (matchedIds c lib) fs i with
        | .ok (some a) => some (i, a)
        | _ => none) := by
  have hone : ∀ i ∈ lib.items, ∃ o, classifyOne c (matchedIds c lib) fs i = .ok o := by
    intro i hi
    by_cases hm : isMatched c (matchedIds c lib) i = true
    · obtain ⟨a, ha, _⟩ := matched_item_action_total c fs i (hv i hi) (hsrc i hi)
      exact ⟨some a, by simp [classifyOne, hm, ha, Except.map]⟩
    · simp only [Bool.not_eq_true] at hm
      cases hgp : c.get_path i with
      | none => exact ⟨none, by simp [classifyOne, hm, hgp]⟩
      | some v =>
        cases ht : v.truthy with
        | true => exact ⟨some .REMOVE, by simp [classifyOne, hm, hgp, ht]⟩
        | false => exact ⟨none, by simp [classifyOne, hm, hgp, ht]⟩
  constructor
  · intro i hi
    constructor
    · intro hm
      obtain ⟨a, ha, hfour⟩ := matched_item_action_total c fs i (hv i hi) (hsrc i hi)
      exact ⟨a, by simp [classifyOne, hm, ha, Except.map], hfour⟩
    · intro hm
      refine ⟨?_, ?_, ?_⟩
      · intro v hgp ht
        simp [classifyOne, hm, hgp, ht]
      · intro hgp
        simp [classifyOne, hm, hgp]
      · intro v hgp ht
        simp [classifyOne, hm, hgp, ht]
  · exact classifyAll_ok c (matchedIds c lib) fs lib.items hone

/-- A concrete two-item library for the C2 witness: one matched tracked
item and one unmatched tracked item. -/
def cC2 : External :=
  ⟨"alt.test", fun i => decide (i.id = 1), fun _ => false, [".jpg"], true, true,
    ["alt"], fun i => [toString i.id ++ ".mp3"]⟩

/-- The C2 witness library. -/
def libC2 : Lib :=
  ⟨[⟨1, ["lib", "a.mp3"], 320, "MP3", []⟩,
    ⟨2, ["lib", "b.mp3"], 320, "MP3", [("alt.test", Value.vbytes ["alt", "2.mp3"])]⟩], []⟩

/-- The C2 witness filesystem. -/
def fsC2 : FS :=
  ⟨[(["lib", "a.mp3"], 5), (["lib", "b.mp3"], 5), (["alt", "2.mp3"], 7)], [["alt"]]⟩

/-- Witness for C2: on the concrete library the loop classifies without an
exception. -/
theorem C2_witness : ∃ l, items_action cC2 libC2 fsC2 = .ok l :=
  ⟨_, (C2_classification_total cC2 libC2 fsC2 (by decide) (by decide)).2⟩

/-- The C2 counterexample item: matched, recorded exactly at its computed
destination, but with its primary file missing from disk. -/
def itC2x : Item :=
  ⟨1, ["lib", "gone.mp3"], 320, "MP3", [("alt.test", Value.vbytes ["alt", "1.mp3"])]⟩

/-- The C2 counterexample filesystem: the alternative file exists, the
primary file does not. -/
def fsC2x : FS := ⟨[(["alt", "1.mp3"], 7)], [["alt"]]⟩

/-- Counterexample for C2's unconditional totality: this matched item is
assigned no action at all — its classification reaches the
`os.path.getmtime` comparison with the recorded path equal to the
destination and raises `OSError` on the missing primary file, and the
whole `items_action` sweep aborts with that exception. -/
theorem C2_counterexample :
    classifyOne cC2 (matchedIds cC2 ⟨[itC2x], []⟩) fsC2x itC2x = .error .osError
    ∧ items_action cC2 ⟨[itC2x], []⟩ fsC2x = .error .osError := by
  constructor
  · decide
  · decide

/-- A concrete transcoding configuration: convert only when the bitrate
exceeds the cap. -/
def cC4 : ExternalConvert :=
  ⟨cW, ["ogg"], "ogg", 200000, fun bitrate maxbr _ _ => decide (maxbr < bitrate)⟩

/-- Witness for C4: a high-bitrate item's destination gets the target
extension; computing it concretely shows the replacement. -/
theorem C4_witness :
    cC4.destination ⟨1, ["lib", "a.mp3"], 320000, "MP3", []⟩
      = replaceExtLast (cC4.toExternal.destination ⟨1, ["lib", "a.mp3"], 320000, "MP3", []⟩) "ogg" :=
  (C4_transcode_destination cC4 ⟨1, ["lib", "a.mp3"], 320000, "MP3", []⟩).2.1 (by decide)

/-! C9: the worker pool's drain. -/

/-- Whether a job completed without raising. -/
def jobOk (j : Job) : Bool :=
  match j.2 with
  | .ok _ => true
  | .error _ => false

/-- The `(item, destination)` results of a list of jobs. -/
def jobResults (l : List Job) : List (Item × Path) :=
  l.filterMap fun j =>
    match j.2 with
    | .ok p => some (j.1, p)
    | .error _ => none

theorem perm_cons_eraseJob {j : Job} : ∀ {l : List Job}, j ∈ l → l.Perm (j :: eraseJob l j)
  | x :: xs, hmem => by
    by_cases hx : x = j
    · subst hx
      simp [eraseJob]
    · have hj : j ∈ xs := by
        cases List.mem_cons.mp hmem with
        | inl h => exact absurd h.symm hx
        | inr h => exact h
      have ih := perm_cons_eraseJob hj
      have h2 : (x :: xs).Perm (x :: j :: eraseJob xs j) := ih.cons x
      have h3 : (x :: j :: eraseJob xs j).Perm (j :: x :: eraseJob xs j) :=
        List.Perm.swap j x _
      have h4 : j :: x :: eraseJob xs j = j :: eraseJob (x :: xs) j := by
        simp [eraseJob, hx]
      exact h4 ▸ (h2.trans h3)

theorem mem_of_mem_eraseJob {x j : Job} : ∀ {l : List Job}, x ∈ eraseJob l j → x ∈ l
  | y :: ys, hmem => by
    by_cases hy : y = j
    · subst hy
      simp only [eraseJob, if_pos rfl] at hmem
      exact List.mem_cons_of_mem y hmem
    · simp only [eraseJob, if_neg hy] at hmem
      cases List.mem_cons.mp hmem with
      | inl h => exact h ▸ List.mem_cons_self y ys
      | inr h => exact List.mem_cons_of_mem y (mem_of_mem_eraseJob h)

theorem drainAll_ok (order : List Job) :
    ∀ (tasks : List Job) (down : Bool), order.Perm tasks →
      (∀ j ∈ tasks, jobOk j = true) →
      Worker.drainAll ⟨tasks, down⟩ order = (.ok (jobResults order), ⟨[], down⟩) := by
  induction order with
  | nil =>
    intro tasks down hperm _
    have : tasks = [] := (hperm.symm).eq_nil
    subst this
    rfl
  | cons j os ih =>
    intro tasks down hperm hok
    have hmem : j ∈ tasks := hperm.subset (List.mem_cons_self j os)
    have hrest : os.Perm (eraseJob tasks j) := by
      have h1 : tasks.Perm (j :: eraseJob tasks j) := perm_cons_eraseJob hmem
      exact (hperm.trans h1).cons_inv
    obtain ⟨p, hp⟩ : ∃ p, j.2 = .ok p := by
      have := hok j hmem
      unfold jobOk at this
      cases hj : j.2 with
      | ok p => exact ⟨p, rfl⟩
      | error e => rw [hj] at this; simp at this
    have hok' : ∀ x ∈ eraseJob tasks j, jobOk x = true :=
      fun x hx => hok x (mem_of_mem_eraseJob hx)
    unfold Worker.drainAll
    simp only [hp]
    rw [ih (eraseJob tasks j) down hrest hok']
    simp [jobResults, hp]

/-- C9 as amended: when every submitted job completed without raising,
draining the worker against any completion order that is a permutation of
the submitted jobs yields each completed `(item, dest)` result exactly
once — the output is a permutation of the jobs' results, so nothing is
duplicated or dropped — empties the task set, and a subsequent `shutdown`
is an ordinary state change on the emptied pool.  A failing job aborts the
drain and drops the results after it (see the counterexample). -/
theorem C9_drain_exactly_once (w : Worker) (order : List Job)
    (hperm : order.Perm w.tasks)
    (hok : ∀ j ∈ w.tasks, jobOk j = true) :
    Worker.drainAll w order = (.ok (jobResults order), ⟨[], w.down⟩)
    ∧ (jobResults order).Perm (jobResults w.tasks)
    ∧ Worker.shutdown (Worker.drainAll w order).2 = ⟨[], true⟩ := by
  have h1 : Worker.drainAll w order = (.ok (jobResults order), ⟨[], w.down⟩) :=
    drainAll_ok order w.tasks w.down hperm hok
  refine ⟨h1, hperm.filterMap _, ?_⟩
  rw [h1]
  rfl

/-- Concrete worker for the C9 witness: two completed jobs, harvested in
reverse submission order. -/
def wC9 : Worker :=
  ⟨[(⟨1, ["lib", "a.mp3"], 320, "MP3", []⟩, .ok ["alt", "1.mp3"]),
    (⟨2, ["lib", "b.mp3"], 320, "MP3", []⟩, .ok ["alt", "2.mp3"])], false⟩

/-- The C9 witness completion order (reverse of submission). -/
def ordC9 : List Job :=
  [(⟨2, ["lib", "b.mp3"], 320, "MP3", []⟩, .ok ["alt", "2.mp3"]),
   (⟨1, ["lib", "a.mp3"], 320, "MP3", []⟩, .ok ["alt", "1.mp3"])]

/-- Witness for C9. -/
theorem C9_witness :
    Worker.drainAll wC9 ordC9 = (.ok (jobResults ordC9), ⟨[], false⟩) :=
  (C9_drain_exactly_once wC9 ordC9 (by decide) (by decide)).1

/-- The C9 counterexample pool: a failed future and a completed one. -/
def wC9x : Worker :=
  ⟨[(⟨1, ["lib", "a.mp3"], 320, "MP3", []⟩, .error .osError),
    (⟨2, ["lib", "b.mp3"], 320, "MP3", []⟩, .ok ["alt", "2.mp3"])], false⟩

/-- Counterexample for C9's claim over every multiset of submitted jobs:
with the failed future first in completion order, `as_completed` re-raises
its exception at the consumer and the drain ends — the second job's
completed `(item, dest)` result exists but is never yielded, so it is
dropped rather than delivered exactly once. -/
theorem C9_counterexample :
    (Worker.drainAll wC9x wC9x.tasks).1 = .error .osError
    ∧ jobResults wC9x.tasks
        = [(⟨2, ["lib", "b.mp3"], 320, "MP3", []⟩, ["alt", "2.mp3"])]
    ∧ ∀ l, (Worker.drainAll wC9x wC9x.tasks).1 ≠ .ok l := by
  refine ⟨by decide, by decide, ?_⟩
  intro l hc
  rw [show (Worker.drainAll wC9x wC9x.tasks).1 = .error .osError from by decide] at hc
  cases hc

/-! C5: a failing job at harvest time. -/

/-- The persistence effect of harvesting the given jobs in order: each
job's item gets its recorded path set to the job's destination. -/
def persistAdds (c : External) (jobs : List Item) (items : List Item) : List Item :=
  jobs.foldl
    (fun its j => its.map fun it => if it.id = j.id then c.set_path it (c.destination j) else it)
    items

/-- C5 as amended: a failing job's error is not retried and does not
vanish — the first failure in completion order propagates out of the
harvest loop as the run's error, the results harvested before it are
persisted, and the failing item together with every job after it in
completion order is left unpersisted (the loop aborts). -/
theorem C5_harvest_error_prefix (c : External) (now : Nat) (f : Item) (post : List Item)
    (pre : List Item) :
    ∀ (items0 : List Item) (fs0 : FS) (effs0 : List Eff),
      (∀ i ∈ pre, fs0.isfile i.path = true) →
      fs0.isfile f.path = false →
      (∀ i ∈ pre, c.destination i ≠ f.path) →
      ∃ fs' effs', External.runJobs c now (pre ++ f :: post) items0 fs0 effs0
        = (persistAdds c pre items0, fs', effs', some .osError) := by
  induction pre with
  | nil =>
    intro items0 fs0 effs0 _ h2 _
    refine ⟨fs0, effs0, ?_⟩
    have hmk : (fs0.mkdirall (c.destination f)).isfile f.path = false := by
      rw [isfile_mkdirall]; exact h2
    simp [External.runJobs, External.convertJob, FS.copyFile, hmk, persistAdds]
  | cons i pre' ih =>
    intro items0 fs0 effs0 h1 h2 h3
    have hfile : fs0.isfile i.path = true := h1 i (List.mem_cons_self i pre')
    have hmk : (fs0.mkdirall (c.destination i)).isfile i.path = true := by
      rw [isfile_mkdirall]; exact hfile
    have hstep : External.runJobs c now ((i :: pre') ++ f :: post) items0 fs0 effs0
        = External.runJobs c now (pre' ++ f :: post)
            (items0.map fun it => if it.id = i.id then c.set_path it (c.destination i) else it)
            ((fs0.mkdirall (c.destination i)).setFile (c.destination i) now)
            (effs0 ++ [.mkdirs (c.destination i), .copied i.path (c.destination i)]) := by
      simp [External.runJobs, External.convertJob, FS.copyFile, hmk]
    rw [hstep]
    obtain ⟨fs', effs', hrec⟩ := ih
      (items0.map fun it => if it.id = i.id then c.set_path it (c.destination i) else it)
      ((fs0.mkdirall (c.destination i)).setFile (c.destination i) now)
      (effs0 ++ [.mkdirs (c.destination i), .copied i.path (c.destination i)])
      (by
        intro x hx
        rw [isfile_setFile, isfile_mkdirall]
        simp [h1 x (List.mem_cons_of_mem i hx)])
      (by
        rw [isfile_setFile, isfile_mkdirall, h2]
        have hne : f.path ≠ c.destination i := fun hc => h3 i (List.mem_cons_self i pre') hc.symm
        simp [hne])
      (fun x hx => h3 x (List.mem_cons_of_mem i hx))
    exact ⟨fs', effs', by rw [hrec]; rfl⟩

/-- Items for the C5 counterexample: a matched item whose primary file is
missing (its copy job will fail) and a healthy matched item. -/
def itA5 : Item := ⟨1, ["lib", "gone.mp3"], 320, "MP3", []⟩

/-- The healthy second item of the C5 counterexample. -/
def itB5 : Item := ⟨2, ["lib", "b.mp3"], 320, "MP3", []⟩

/-- The C5 counterexample filesystem: only the second item's primary file
exists. -/
def fsC5 : FS := ⟨[(["lib", "b.mp3"], 5)], [["alt"]]⟩

/-- Counterexample for C5: with the failing job first in completion order,
the error aborts the whole harvest — the run ends with the error and the
other submitted job's result is never persisted (both recorded paths stay
absent), contradicting the claim that every other job's harvest and
persistence still completes. -/
theorem C5_counterexample :
    (External.update cW none true 10 id ⟨[itA5, itB5], []⟩ fsC5).err = some .osError
    ∧ (External.update cW none true 10 id ⟨[itA5, itB5], []⟩ fsC5).items.map
        (fun i => cW.get_path i) = [none, none] := by
  constructor
  · decide
  · decide

/-- Witness for C5's amended statement: one successful job harvested before
the failing one is persisted; the jobs after the failure are not. -/
theorem C5_witness :
    ∃ fs' effs', External.runJobs cW 10 ([itB5] ++ itA5 :: [⟨3, ["lib", "c.mp3"], 320, "MP3", []⟩])
      [itA5, itB5] fsC5 []
      = (persistAdds cW [itB5] [itA5, itB5], fs', effs', some .osError) :=
  C5_harvest_error_prefix cW 10 itA5 [⟨3, ["lib", "c.mp3"], 320, "MP3", []⟩] [itB5]
    [itA5, itB5] fsC5 [] (by decide) (by decide) (by decide)

/-! C6: declined creation of a missing target directory. -/

/-- C6 as amended: for the copy and transcode strategies (which share
`External.update`), a missing target directory whose creation is declined
makes the whole update a reported skip — no exception, no filesystem
change, no item change, whatever the library and completion order.  The
symlink strategy does not perform this check (see the counterexample). -/
theorem C6_skip_noop (c : External) (create : Option Bool) (promptYes : Bool)
    (now : Nat) (reorder : List Item → List Item) (lib : Lib) (fs : FS)
    (hdir : fs.isdir c.directory = false)
    (hdecl : c.ask_create create promptYes = false) :
    External.update c create promptYes now reorder lib fs
      = ⟨lib.items, fs, [.skipped c.directory], none⟩ := by
  unfold External.update
  simp [hdir, hdecl]

/-- The C6 counterexample configuration: a removable symlink view whose
target directory does not exist. -/
def cC6 : External :=
  ⟨"alt.byid", fun _ => true, fun _ => false, [".jpg"], true, true,
    ["linkdir"], fun i => [toString i.id ++ ".mp3"]⟩

/-- The C6 counterexample filesystem: the target directory `linkdir` is
absent. -/
def fsC6 : FS := ⟨[(["lib", "a.mp3"], 5)], []⟩

/-- The C6 counterexample library: one matched untracked item. -/
def libC6 : Lib := ⟨[⟨1, ["lib", "a.mp3"], 320, "MP3", []⟩], []⟩

/-- Counterexample for C6: under the symlink strategy, with the target
directory absent and creation declined by the caller (`--no-create`),
update is not a no-op — it creates the symlink (filesystem effects and a
recorded-path change), because `SymlinkView.update` never performs the
directory-existence check. -/
theorem C6_counterexample :
    (SymlinkView.update cC6 (some false) libC6 fsC6).effs
        = [.mkdirs ["linkdir", "1.mp3"], .linked ["lib", "a.mp3"] ["linkdir", "1.mp3"]]
    ∧ (SymlinkView.update cC6 (some false) libC6 fsC6).fs ≠ fsC6
    ∧ (SymlinkView.update cC6 (some false) libC6 fsC6).items ≠ libC6.items := by
  refine ⟨?_, ?_, ?_⟩
  · decide
  · decide
  · decide

/-- Witness for C6's amended statement: a concrete declined run returns the
skip result unchanged. -/
theorem C6_witness :
    External.update cC6 (some false) true 10 id libC6 fsC6
      = ⟨libC6.items, fsC6, [.skipped ["linkdir"]], none⟩ :=
  C6_skip_noop cC6 (some false) true 10 id libC6 fsC6 (by decide) (by decide)

/-! C7: removal of a tracked item. -/

theorem isdir_removeFile (fs : FS) (p q : Path) : (fs.removeFile p).isdir q = fs.isdir q := rfl

theorem dirs_removeFile (fs : FS) (p : Path) : (fs.removeFile p).dirs = fs.dirs := rfl

theorem no_entry_of_isfile_false {fs : FS} {q : Path} (h : fs.isfile q = false) :
    ∀ e ∈ fs.files, e.1 ≠ q := by
  intro e he
  unfold FS.isfile at h
  cases hf : fs.files.find? (fun e => e.1 = q) with
  | some e2 => rw [hf] at h; simp at h
  | none =>
    have := List.find?_eq_none.mp hf e he
    simpa using this

theorem rmEntries_spec (d : Path) (l : List String) :
    ∀ (fs : FS) (effs : List Eff),
      (∀ q ∈ fs.dirs, q.dropLast ≠ d) →
      ∃ effs', rmEntries d fs effs l
        = .ok (⟨fs.files.filter (fun e => !(decide (e.1 ∈ l.map (fun f => d ++ [f])))),
               fs.dirs⟩, effs ++ effs') := by
  induction l with
  | nil =>
    intro fs effs _
    refine ⟨[], ?_⟩
    simp [rmEntries]
  | cons f rest ih =>
    intro fs effs hnod
    have hdirq : fs.isdir (d ++ [f]) = false := by
      cases hq : fs.isdir (d ++ [f]) with
      | false => rfl
      | true =>
        unfold FS.isdir at hq
        have hmem : (d ++ [f]) ∈ fs.dirs := by simpa using hq
        have := hnod _ hmem
        simp at this
    by_cases hfq : fs.isfile (d ++ [f]) = true
    · have hstep : rmEntries d fs effs (f :: rest)
          = rmEntries d (fs.removeFile (d ++ [f])) (effs ++ [.removedFile (d ++ [f])]) rest := by
        simp [rmEntries, hfq]
      obtain ⟨effs', heq⟩ := ih (fs.removeFile (d ++ [f])) (effs ++ [.removedFile (d ++ [f])])
        (by rw [dirs_removeFile]; exact hnod)
      refine ⟨[.removedFile (d ++ [f])] ++ effs', ?_⟩
      rw [hstep, heq]
      have hfiles : (fs.removeFile (d ++ [f])).files.filter
            (fun e => !(decide (e.1 ∈ rest.map (fun f => d ++ [f]))))
          = fs.files.filter (fun e => !(decide (e.1 ∈ (f :: rest).map (fun f => d ++ [f])))) := by
        unfold FS.removeFile
        rw [List.filter_filter]
        apply List.filter_congr
        intro e _
        by_cases h1 : e.1 = d ++ [f]
        · simp [h1]
        · simp [h1]
      rw [dirs_removeFile]
      rw [hfiles]
      simp
    · simp only [Bool.not_eq_true] at hfq
      have hstep : rmEntries d fs effs (f :: rest) = rmEntries d fs effs rest := by
        simp [rmEntries, hfq, hdirq]
      obtain ⟨effs', heq⟩ := ih fs effs hnod
      refine ⟨effs', ?_⟩
      rw [hstep, heq]
      have hfiles : fs.files.filter (fun e => !(decide (e.1 ∈ rest.map (fun f => d ++ [f]))))
          = fs.files.filter (fun e => !(decide (e.1 ∈ (f :: rest).map (fun f => d ++ [f])))) := by
        apply List.filter_congr
        intro e he
        have hne := no_entry_of_isfile_false hfq e he
        simp [hne]
      rw [hfiles]

theorem childNames_complete (fs : FS) (e : Path × Nat) (he : e ∈ fs.files)
    (hne : e.1 ≠ []) (x : String) (hx : e.1.getLast? = some x) :
    x ∈ fs.childNames e.1.dropLast := by
  unfold FS.childNames
  apply List.mem_filterMap.mpr
  refine ⟨e.1, List.mem_append_left _ (List.mem_map_of_mem Prod.fst he), ?_⟩
  simp [hx]

theorem concat_of_getLast? {p : Path} (hne : p ≠ []) {x : String}
    (hx : p.getLast? = some x) : p.dropLast ++ [x] = p := by
  have h1 := List.getLast?_eq_getLast p hne
  rw [h1] at hx
  have h2 : x = p.getLast hne := by
    injection hx with h3
    exact h3.symm
  rw [h2]
  exact List.dropLast_append_getLast hne

theorem artFilter_eq (fs1 : FS) (d : Path) (hkeys : ∀ e ∈ fs1.files, e.1 ≠ []) :
    fs1.files.filter (fun e => !(decide (e.1 ∈ (fs1.childNames d).map (fun f => d ++ [f]))))
      = fs1.files.filter (fun e => decide (e.1.dropLast ≠ d)) := by
  apply List.filter_congr
  intro e he
  by_cases hdl : e.1.dropLast = d
  · obtain ⟨x, hx⟩ : ∃ x, e.1.getLast? = some x := by
      cases hl : e.1.getLast? with
      | none => exact absurd (List.getLast?_eq_none_iff.mp hl) (hkeys e he)
      | some x => exact ⟨x, rfl⟩
    have hmem : x ∈ fs1.childNames d := hdl ▸ childNames_complete fs1 e he (hkeys e he) x hx
    have hx2 : d ++ [x] = e.1 := by
      rw [← hdl]
      exact concat_of_getLast? (hkeys e he) hx
    have hin : e.1 ∈ (fs1.childNames d).map (fun f => d ++ [f]) :=
      hx2 ▸ List.mem_map_of_mem _ hmem
    simp [hin, hdl]
  · have hnin : e.1 ∉ (fs1.childNames d).map (fun f => d ++ [f]) := by
      intro hc
      obtain ⟨x, _, hx⟩ := List.mem_map.mp hc
      rw [← hx] at hdl
      simp at hdl
    simp [hnin, hdl]

theorem isPre_take_self : ∀ (p : Path) (k : Nat), isPre (p.take k) p = true
  | [], k => by simp [List.take, isPre]
  | a :: as, 0 => rfl
  | a :: as, k + 1 => by simp [List.take, isPre, isPre_take_self as k]

theorem isPre_take_of : ∀ (r p : Path) (k : Nat), isPre r p = true → r.length ≤ k →
    isPre r (p.take k) = true
  | [], _, _, _, _ => rfl
  | a :: as, [], k, h, _ => by simp [isPre] at h
  | a :: as, b :: bs, 0, _, hk => by simp at hk
  | a :: as, b :: bs, k + 1, h, hk => by
    simp only [isPre, Bool.and_eq_true, decide_eq_true_eq] at h
    simp only [List.take, isPre, Bool.and_eq_true, decide_eq_true_eq]
    exact ⟨h.1, isPre_take_of as bs k h.2 (by simpa using hk)⟩

theorem ancestorChain_mem (root p d : Path) (hd : d ∈ ancestorChain root p) :
    isPre root d = true ∧ root.length < d.length ∧ isPre d p = true := by
  unfold ancestorChain at hd
  by_cases hg : (isPre root p && decide (root.length < p.length)) = true
  · rw [if_pos hg] at hd
    obtain ⟨n, hn, rfl⟩ := List.mem_map.mp hd
    have hn' : n < p.length - root.length := List.mem_range.mp hn
    simp only [Bool.and_eq_true, decide_eq_true_eq] at hg
    have hlen : (p.take (p.length - n)).length = p.length - n := by
      rw [List.length_take]
      omega
    refine ⟨isPre_take_of root p (p.length - n) hg.1 (by omega), ?_, isPre_take_self p _⟩
    rw [hlen]
    omega
  · rw [if_neg hg] at hd
    simp at hd

theorem childNames_rmdir_nil (fs : FS) (d x : Path) (h : fs.childNames x = []) :
    (fs.rmdir d).childNames x = [] := by
  unfold FS.childNames FS.rmdir at *
  rw [List.filterMap_eq_nil_iff] at h ⊢
  intro a ha
  apply h
  rcases List.mem_append.mp ha with h1 | h1
  · exact List.mem_append_left _ h1
  · exact List.mem_append_right _ (List.mem_of_mem_filter h1)

theorem childNames_pruneChain_nil (ds : List Path) :
    ∀ (fs : FS) (x : Path), fs.childNames x = [] → (pruneChain fs ds).childNames x = [] := by
  induction ds with
  | nil => intro fs x h; exact h
  | cons d rest ih =>
    intro fs x h
    unfold pruneChain
    by_cases hex : fs.existsAt d = true
    · by_cases hempty : (fs.childNames d = [] && !fs.isfile d) = true
      · simp only [hex, hempty, if_pos rfl]
        exact ih (fs.rmdir d) x (childNames_rmdir_nil fs d x h)
      · simp [hex, hempty, h]
    · simp only [Bool.not_eq_true] at hex
      simp only [hex, Bool.false_eq_true, if_false]
      exact ih fs x h

theorem pruneChain_removed (ds : List Path) :
    ∀ (fs : FS) (q : Path), q ∈ fs.dirs → q ∉ (pruneChain fs ds).dirs →
      q ∈ ds ∧ (pruneChain fs ds).childNames q = [] := by
  induction ds with
  | nil => intro fs q hq hq'; exact absurd hq hq'
  | cons d rest ih =>
    intro fs q hq hq'
    unfold pruneChain at hq' ⊢
    by_cases hex : fs.existsAt d = true
    · by_cases hempty : (fs.childNames d = [] && !fs.isfile d) = true
      · simp only [hex, hempty, if_pos rfl] at hq' ⊢
        by_cases hqd : q = d
        · subst hqd
          refine ⟨List.mem_cons_self q rest, ?_⟩
          have h1 : fs.childNames q = [] := by
            simp only [Bool.and_eq_true, decide_eq_true_eq] at hempty
            exact hempty.1
          exact childNames_pruneChain_nil rest (fs.rmdir q) q (childNames_rmdir_nil fs q q h1)
        · have hq2 : q ∈ (fs.rmdir d).dirs := by
            unfold FS.rmdir
            apply List.mem_filter.mpr
            exact ⟨hq, by simp [hqd]⟩
          obtain ⟨h1, h2⟩ := ih (fs.rmdir d) q hq2 hq'
          exact ⟨List.mem_cons_of_mem d h1, h2⟩
      · simp only [hex, hempty] at hq' ⊢
        simp at hq'
        exact absurd hq hq'
    · simp only [Bool.not_eq_true] at hex
      simp only [hex, Bool.false_eq_true, if_false] at hq' ⊢
      obtain ⟨h1, h2⟩ := ih fs q hq hq'
      exact ⟨List.mem_cons_of_mem d h1, h2⟩

theorem isfile_of_no_entry (fs : FS) (p : Path) (h : ∀ e ∈ fs.files, e.1 ≠ p) :
    fs.isfile p = false := by
  unfold FS.isfile
  have hnone : fs.files.find? (fun e => e.1 = p) = none :=
    List.find?_eq_none.mpr (by intro e he; simpa using h e he)
  simp [hnone]

theorem pruneDirs_removed (fs2 : FS) (p root q : Path) (hq : q ∈ fs2.dirs)
    (hq' : q ∉ (fs2.pruneDirs p root).dirs) :
    isPre root q = true ∧ root.length < q.length ∧ isPre q p = true
      ∧ (fs2.pruneDirs p root).childNames q = [] := by
  obtain ⟨hmem, hnil⟩ := pruneChain_removed (ancestorChain root p) fs2 q hq hq'
  obtain ⟨h1, h2, h3⟩ := ancestorChain_mem root p q hmem
  exact ⟨h1, h2, h3, hnil⟩

theorem mem_dirs_of_isdir {fs : FS} {d : Path} (h : fs.isdir d = true) : d ∈ fs.dirs := by
  unfold FS.isdir at h
  simpa using h

theorem isdir_of_mem_dirs {fs : FS} {d : Path} (h : d ∈ fs.dirs) : fs.isdir d = true := by
  unfold FS.isdir
  simpa using h

theorem pruneDirs_root (fs2 : FS) (p root : Path) (h : fs2.isdir root = true) :
    (fs2.pruneDirs p root).isdir root = true := by
  by_cases hmem : root ∈ (fs2.pruneDirs p root).dirs
  · exact isdir_of_mem_dirs hmem
  · obtain ⟨_, h2, _, _⟩ := pruneDirs_removed fs2 p root root (mem_dirs_of_isdir h) hmem
    omega

/-! C3: infrastructure lemmas. -/

theorem isPre_append_self : ∀ (d r : Path), isPre d (d ++ r) = true
  | [], _ => rfl
  | a :: as, r => by simp [isPre, isPre_append_self as r]

theorem length_le_of_isPre : ∀ {r p : Path}, isPre r p = true → r.length ≤ p.length
  | [], _, _ => by simp
  | a :: as, [], h => by simp [isPre] at h
  | a :: as, b :: bs, h => by
    simp only [isPre, Bool.and_eq_true] at h
    simpa using length_le_of_isPre h.2

theorem eq_append_of_isPre : ∀ {r p : Path}, isPre r p = true → ∃ s, p = r ++ s
  | [], p, _ => ⟨p, rfl⟩
  | a :: as, [], h => by simp [isPre] at h
  | a :: as, b :: bs, h => by
    simp only [isPre, Bool.and_eq_true, decide_eq_true_eq] at h
    obtain ⟨s, hs⟩ := eq_append_of_isPre h.2
    exact ⟨s, by rw [h.1, hs]; rfl⟩

theorem take_getLast (p : Path) (n : Nat) (h0 : 0 < n) (h1 : n < p.length) :
    ∃ x, (p.take n).getLast? = some x ∧ x ∈ p.dropLast := by
  cases n with
  | zero => omega
  | succ m =>
    have hm : m < p.length := by omega
    have ht : p.take (m + 1) = p.take m ++ [p.get ⟨m, hm⟩] := by
      rw [List.take_succ]
      congr
      simp [List.getElem?_eq_getElem hm]
    have hlast : (p.take (m + 1)).getLast? = some (p.get ⟨m, hm⟩) := by
      rw [ht]
      exact List.getLast?_concat _
    refine ⟨p.get ⟨m, hm⟩, hlast, ?_⟩
    have hm2 : m < p.dropLast.length := by
      rw [List.length_dropLast]
      omega
    have : p.dropLast.get ⟨m, hm2⟩ = p.get ⟨m, hm⟩ := by
      simp [List.getElem_dropLast]
    rw [← this]
    exact p.dropLast.get_mem m hm2

theorem properAncestors_mem {p d : Path} (hd : d ∈ properAncestors p) :
    ∃ n, 0 < n ∧ n < p.length ∧ d = p.take n := by
  unfold properAncestors at hd
  obtain ⟨n, hn, heq⟩ := List.mem_filterMap.mp hd
  have hn' : n < p.length := List.mem_range.mp hn
  by_cases h0 : n = 0
  · rw [if_pos h0] at heq
    cases heq
  · rw [if_neg h0] at heq
    exact ⟨n, Nat.pos_of_ne_zero h0, hn', (Option.some.injEq _ _ ▸ heq).symm⟩

theorem properAncestors_names {p d : Path} (hd : d ∈ properAncestors p) :
    d ≠ [] ∧ ∃ x, d.getLast? = some x ∧ x ∈ p.dropLast := by
  obtain ⟨n, h0, h1, rfl⟩ := properAncestors_mem hd
  obtain ⟨x, hx1, hx2⟩ := take_getLast p n h0 h1
  constructor
  · have : (p.take n).length = n := by rw [List.length_take]; omega
    intro hc
    rw [hc] at this
    simp at this
    omega
  · exact ⟨x, hx1, hx2⟩

theorem dirs_mkdirall_mem (fs : FS) (p d : Path) :
    d ∈ (fs.mkdirall p).dirs ↔ d ∈ fs.dirs ∨ d ∈ properAncestors p := by
  unfold FS.mkdirall
  simp only [List.mem_append, List.mem_filter]
  by_cases hmem : d ∈ fs.dirs
  · simp [hmem]
  · simp [hmem]

theorem isdir_mkdirall_of (fs : FS) (p d : Path) (h : fs.isdir d = true) :
    (fs.mkdirall p).isdir d = true :=
  isdir_of_mem_dirs ((dirs_mkdirall_mem fs p d).mpr (Or.inl (mem_dirs_of_isdir h)))

theorem dirs_pruneChain_sub (ds : List Path) :
    ∀ (fs : FS) (d : Path), d ∈ (pruneChain fs ds).dirs → d ∈ fs.dirs := by
  induction ds with
  | nil => intro fs d h; exact h
  | cons x rest ih =>
    intro fs d h
    unfold pruneChain at h
    by_cases hex : fs.existsAt x = true
    · by_cases hempty : (fs.childNames x = [] && !fs.isfile x) = true
      · simp only [hex, hempty, if_pos rfl] at h
        have := ih (fs.rmdir x) d h
        exact List.mem_of_mem_filter this
      · simp only [hex, hempty] at h
        simpa using h
    · simp only [Bool.not_eq_true] at hex
      simp only [hex, Bool.false_eq_true, if_false] at h
      exact ih fs d h

theorem dirs_pruneDirs_sub (fs : FS) (p root d : Path)
    (h : d ∈ (fs.pruneDirs p root).dirs) : d ∈ fs.dirs :=
  dirs_pruneChain_sub _ fs d h

theorem find?_key_filter_keep (l : List (Path × Nat)) (pr : Path × Nat → Bool) (x : Path)
    (h : ∀ e ∈ l, e.1 = x → pr e = true) :
    (l.filter pr).find? (fun e => e.1 = x) = l.find? (fun e => e.1 = x) := by
  induction l with
  | nil => rfl
  | cons hd tl ih =>
    by_cases hk : hd.1 = x
    · have hpr : pr hd = true := h hd (List.mem_cons_self hd tl) hk
      simp [List.filter_cons, hpr, List.find?, hk]
    · have ih' := ih fun e he hex => h e (List.mem_cons_of_mem hd he) hex
      by_cases hpr : pr hd = true
      · simp [List.filter_cons, hpr, List.find?, hk, ih']
      · simp only [List.filter_cons, hpr, Bool.false_eq_true, if_false]
        rw [ih']
        have hk' : (decide (hd.1 = x)) = false := by simp [hk]
        simp [List.find?, hk']

theorem getmtime_filter_keep (l : List (Path × Nat)) (dirs : List Path)
    (pr : Path × Nat → Bool) (x : Path) (h : ∀ e ∈ l, e.1 = x → pr e = true) :
    FS.getmtime ⟨l.filter pr, dirs⟩ x = FS.getmtime ⟨l, dirs⟩ x := by
  unfold FS.getmtime
  rw [find?_key_filter_keep l pr x h]

theorem getmtime_none_filter (l : List (Path × Nat)) (dirs dirs' : List Path)
    (pr : Path × Nat → Bool) (x : Path) (h : FS.getmtime ⟨l, dirs⟩ x = none) :
    FS.getmtime ⟨l.filter pr, dirs'⟩ x = none := by
  unfold FS.getmtime at h ⊢
  cases hf : l.find? (fun e => e.1 = x) with
  | some e => rw [hf] at h; simp at h
  | none =>
    have hnone : (l.filter pr).find? (fun e => e.1 = x) = none := by
      rw [List.find?_eq_none]
      intro e he
      exact List.find?_eq_none.mp hf e (List.mem_of_mem_filter he)
    simp [hnone]

theorem moveFile_ok (fs : FS) (src dst : Path) (t : Nat) (hne : src ≠ dst)
    (hsrc : fs.getmtime src = some t) (hdst : fs.isfile dst = false) :
    fs.moveFile src dst = .ok ((fs.removeFile src).setFile dst t) := by
  have h1 : (fs.files.find? (fun e => e.1 = src)).map Prod.snd = some t := hsrc
  simp [FS.moveFile, if_neg hne, h1, hdst]

theorem writeTags_ok (fs : FS) (p : Path) (now : Nat) (h : fs.isfile p = true) :
    fs.writeTags p now = .ok (fs.setFile p now) := by
  simp [FS.writeTags, h]

theorem copyFile_ok (fs : FS) (src dst : Path) (now : Nat) (h : fs.isfile src = true) :
    fs.copyFile src dst now = .ok (fs.setFile dst now) := by
  simp [FS.copyFile, h]

theorem get_path_set_path (c : External) (i : Item) (p : Path) :
    c.get_path (c.set_path i p) = some (.vbytes p) := by
  simp [External.get_path, External.set_path, List.find?]

theorem get_path_clear (c : External) (i : Item) :
    c.get_path { i with attrs := i.attrs.filter (fun e => e.1 ≠ c.path_key) } = none := by
  unfold External.get_path
  have hnone : (i.attrs.filter (fun e => e.1 ≠ c.path_key)).find?
      (fun e => e.1 = c.path_key) = none := by
    rw [List.find?_eq_none]
    intro e he
    have := List.of_mem_filter he
    simpa using this
  simp [hnone]

theorem destination_attrs (c : External)
    (hpf : ∀ (i : Item) (a : List (String × Value)), c.pathFmt { i with attrs := a } = c.pathFmt i)
    (i : Item) (a : List (String × Value)) :
    c.destination { i with attrs := a } = c.destination i := by
  unfold External.destination
  rw [hpf]

theorem isMatched_attrs (c : External) (mids : List Nat)
    (hq : ∀ (i : Item) (a : List (String × Value)), c.queryItem { i with attrs := a } = c.queryItem i)
    (i : Item) (a : List (String × Value)) :
    isMatched c mids { i with attrs := a } = isMatched c mids i := by
  unfold isMatched
  rw [hq]

theorem forall₂_mem_right {α β : Type} {R : α → β → Prop} :
    ∀ {l : List α} {l' : List β}, List.Forall₂ R l l' → ∀ x' ∈ l', ∃ x ∈ l, R x x' := by
  intro l l' h
  induction h with
  | nil => intro x' hx; cases hx
  | cons hr hrest ih =>
    intro x' hx
    cases List.mem_cons.mp hx with
    | inl he => exact ⟨_, List.mem_cons_self _ _, he ▸ hr⟩
    | inr he =>
      obtain ⟨x, hx1, hx2⟩ := ih x' he
      exact ⟨x, List.mem_cons_of_mem _ hx1, hx2⟩

theorem isfile_iff_exists (fs : FS) (x : Path) :
    fs.isfile x = true ↔ ∃ e ∈ fs.files, e.1 = x := by
  unfold FS.isfile
  rw [List.find?_isSome]
  simp

theorem childNames_complete_dir (fs : FS) (q : Path) (hmem : q ∈ fs.dirs)
    (hne : q ≠ []) (x : String) (hx : q.getLast? = some x) :
    x ∈ fs.childNames q.dropLast := by
  unfold FS.childNames
  apply List.mem_filterMap.mpr
  refine ⟨q, List.mem_append_right _ hmem, ?_⟩
  simp [hx]

theorem getmtime_files_eq (A B : FS) (h : A.files = B.files) (x : Path) :
    A.getmtime x = B.getmtime x := by
  unfold FS.getmtime
  rw [h]

theorem isPre_trans : ∀ {a b c : Path}, isPre a b = true → isPre b c = true → isPre a c = true
  | [], _, _, _, _ => rfl
  | x :: xs, [], _, h, _ => by simp [isPre] at h
  | x :: xs, y :: ys, [], _, h => by simp [isPre] at h
  | x :: xs, y :: ys, z :: zs, h1, h2 => by
    simp only [isPre, Bool.and_eq_true, decide_eq_true_eq] at h1 h2 ⊢
    exact ⟨h1.1.trans h2.1, isPre_trans h1.2 h2.2⟩

theorem isPre_dropLast_self (x : Path) : isPre x.dropLast x = true := by
  rw [List.dropLast_eq_take]
  exact isPre_take_self x _

theorem isPre_dropLast_of {r p : Path} (h : isPre r p = true) (hl : r.length < p.length) :
    isPre r p.dropLast = true := by
  rw [List.dropLast_eq_take]
  exact isPre_take_of r p _ h (by omega)

theorem isPre_refl : ∀ (p : Path), isPre p p = true
  | [] => rfl
  | a :: as => by simp [isPre, isPre_refl as]

theorem eq_of_isPre_length {q p : Path} (h : isPre q p = true) (hl : p.length ≤ q.length) :
    q = p := by
  obtain ⟨s, hs⟩ := eq_append_of_isPre h
  have hlen2 := congrArg List.length hs
  rw [List.length_append] at hlen2
  have hs0 : s = [] := by
    cases s with
    | nil => rfl
    | cons a as =>
      rw [hlen2] at hl
      simp at hl
  rw [hs, hs0, List.append_nil]

theorem ancestorChain_cons (root p : Path) (h1 : isPre root p = true)
    (h2 : root.length < p.length) :
    ancestorChain root p = p :: ancestorChain root p.dropLast := by
  have hL : p.dropLast.length = p.length - 1 := List.length_dropLast p
  unfold ancestorChain
  rw [if_pos (by simp [h1, h2])]
  by_cases h3 : root.length < p.length - 1
  · have h1' : isPre root p.dropLast = true := isPre_dropLast_of h1 h2
    rw [if_pos (by rw [hL]; simp [h1', h3])]
    have hk : p.length - root.length = (p.length - 1 - root.length) + 1 := by omega
    rw [hk, List.range_succ_eq_map, List.map_cons, List.map_map]
    simp only [hL]
    rw [Nat.sub_zero, List.take_length]
    congr 1
    apply List.map_congr_left
    intro n hn
    show p.take (p.length - (n + 1)) = p.dropLast.take (p.length - 1 - n)
    rw [List.dropLast_eq_take, List.take_take]
    have hm : min (p.length - 1 - n) (p.length - 1) = p.length - (n + 1) := by omega
    rw [hm]
  · rw [if_neg (by
      rw [hL]
      simp only [Bool.and_eq_true, decide_eq_true_eq]
      intro h
      exact absurd h.2 h3)]
    have hpl : p.length - root.length = 1 := by omega
    rw [hpl]
    have hr1 : List.range 1 = [0] := rfl
    rw [hr1]
    simp [List.take_length]

theorem pruneChain_not_mem {fsc : FS} {d : Path} (ds : List Path) (h : d ∉ fsc.dirs) :
    d ∉ (pruneChain fsc ds).dirs :=
  fun hc => h (dirs_pruneChain_sub ds fsc d hc)

/-- A directory on the pruned ancestor chain whose subtree holds no file
and no directory other than deeper chain entries is emptied bottom-up and
removed by the chain walk. -/
theorem pruneChain_clears_head (root d : Path) (hrd : isPre root d = true)
    (hlen : root.length < d.length) (fsc : FS)
    (hnof : ∀ x, fsc.isfile x = true → isPre d x = false)
    (hsub : ∀ q ∈ fsc.dirs, isPre d q = true → d.length < q.length →
        isPre q d = true ∧ q.length ≤ d.length) :
    d ∉ (pruneChain fsc (ancestorChain root d)).dirs := by
  rw [ancestorChain_cons root d hrd hlen]
  by_cases hmem : d ∈ fsc.dirs
  · have hnotf : fsc.isfile d = false := by
      cases hb : fsc.isfile d with
      | false => rfl
      | true =>
        have := hnof d hb
        rw [isPre_refl d] at this
        cases this
    have hnil : fsc.childNames d = [] := by
      unfold FS.childNames
      rw [List.filterMap_eq_nil_iff]
      intro x hx
      cases hl : x.getLast? with
      | none => rfl
      | some l =>
        simp only [hl]
        by_cases hdl : x.dropLast = d
        · exfalso
          have hxne : x ≠ [] := by
            intro hc
            rw [hc] at hl
            simp at hl
          have hxeq : d ++ [l] = x := by
            rw [← hdl]
            exact concat_of_getLast? hxne hl
          have hpre : isPre d x = true := by
            rw [← hxeq]
            exact isPre_append_self d [l]
          have hlt : d.length < x.length := by
            rw [← hxeq]
            simp
          rcases List.mem_append.mp hx with hf | hdir
          · obtain ⟨e, he, hex⟩ := List.mem_map.mp hf
            have hxf : fsc.isfile x = true := (isfile_iff_exists fsc x).mpr ⟨e, he, hex⟩
            rw [hnof x hxf] at hpre
            cases hpre
          · obtain ⟨_, h2⟩ := hsub x hdir hpre hlt
            omega
        · simp [hdl]
    have hex : fsc.existsAt d = true := by
      unfold FS.existsAt
      rw [isdir_of_mem_dirs hmem]
      simp
    have hempty : (fsc.childNames d = [] && !fsc.isfile d) = true := by
      rw [hnil, hnotf]
      rfl
    unfold pruneChain
    simp only [hex, hempty, if_pos rfl]
    apply pruneChain_not_mem
    unfold FS.rmdir
    intro hc
    have := List.mem_filter.mp hc
    simp at this
  · exact pruneChain_not_mem _ hmem

/-- The affirmative content of the ancestor prune: an ancestor `d` of `p`
strictly below the stop root with no remaining file in its subtree, whose
subdirectories are all ancestors of `p`, is removed by
`pruneChain (ancestorChain root p)`. -/
theorem pruneChain_clears (root d : Path) (hrd : isPre root d = true)
    (hlen : root.length < d.length) :
    ∀ (n : Nat) (p : Path) (fsc : FS), p.length - d.length ≤ n →
      isPre d p = true →
      (∀ x, fsc.isfile x = true → isPre d x = false) →
      (∀ q ∈ fsc.dirs, isPre d q = true → d.length < q.length →
          isPre q p = true ∧ q.length ≤ p.length) →
      d ∉ (pruneChain fsc (ancestorChain root p)).dirs := by
  intro n
  induction n with
  | zero =>
    intro p fsc hfuel hdp hnof hsub
    have hdl := length_le_of_isPre hdp
    have hdeq : d = p := eq_of_isPre_length hdp (by omega)
    subst hdeq
    exact pruneChain_clears_head root d hrd hlen fsc hnof hsub
  | succ m ih =>
    intro p fsc hfuel hdp hnof hsub
    by_cases hdeq : d = p
    · subst hdeq
      exact pruneChain_clears_head root d hrd hlen fsc hnof hsub
    · have hdle := length_le_of_isPre hdp
      have hdlt : d.length < p.length := by
        rcases Nat.lt_or_ge d.length p.length with h | h
        · exact h
        · exact absurd (eq_of_isPre_length hdp h) hdeq
      have hrp : isPre root p = true := isPre_trans hrd hdp
      have hrplen : root.length < p.length := by omega
      have hdp' : isPre d p.dropLast = true := isPre_dropLast_of hdp hdlt
      have hfuel' : p.dropLast.length - d.length ≤ m := by
        rw [List.length_dropLast]
        omega
      rw [ancestorChain_cons root p hrp hrplen]
      have hnotf : fsc.isfile p = false := by
        cases hb : fsc.isfile p with
        | false => rfl
        | true =>
          have := hnof p hb
          rw [hdp] at this
          cases this
      by_cases hmem : p ∈ fsc.dirs
      · have hnil : fsc.childNames p = [] := by
          unfold FS.childNames
          rw [List.filterMap_eq_nil_iff]
          intro x hx
          cases hl : x.getLast? with
          | none => rfl
          | some l =>
            simp only [hl]
            by_cases hdl2 : x.dropLast = p
            · exfalso
              have hxne : x ≠ [] := by
                intro hc
                rw [hc] at hl
                simp at hl
              have hxeq : p ++ [l] = x := by
                rw [← hdl2]
                exact concat_of_getLast? hxne hl
              have hprepx : isPre p x = true := by
                rw [← hxeq]
                exact isPre_append_self p [l]
              have hpredx : isPre d x = true := isPre_trans hdp hprepx
              have hlt2 : p.length < x.length := by
                rw [← hxeq]
                simp
              rcases List.mem_append.mp hx with hf | hdir
              · obtain ⟨e, he, hex⟩ := List.mem_map.mp hf
                have hxf : fsc.isfile x = true := (isfile_iff_exists fsc x).mpr ⟨e, he, hex⟩
                rw [hnof x hxf] at hpredx
                cases hpredx
              · obtain ⟨h1, h2⟩ := hsub x hdir hpredx (by omega)
                have := length_le_of_isPre h1
                omega
            · simp [hdl2]
        have hex : fsc.existsAt p = true := by
          unfold FS.existsAt
          rw [isdir_of_mem_dirs hmem]
          simp
        have hempty : (fsc.childNames p = [] && !fsc.isfile p) = true := by
          rw [hnil, hnotf]
          rfl
        unfold pruneChain
        simp only [hex, hempty, if_pos rfl]
        apply ih p.dropLast (fsc.rmdir p) hfuel' hdp'
        · intro x hx
          exact hnof x hx
        · intro q hq hq1 hq2
          have hqf : q ∈ fsc.dirs := List.mem_of_mem_filter hq
          have hqp : q ≠ p := by
            intro hc
            subst hc
            have := List.mem_filter.mp hq
            simp at this
          obtain ⟨h1, h2⟩ := hsub q hqf hq1 hq2
          have hqlt : q.length < p.length := by
            rcases Nat.lt_or_ge q.length p.length with h | h
            · exact h
            · exact absurd (eq_of_isPre_length h1 h) hqp
          refine ⟨?_, ?_⟩
          · rw [List.dropLast_eq_take]
            exact isPre_take_of q p (p.length - 1) h1 (by omega)
          · rw [List.length_dropLast]
            omega
      · have hex : fsc.existsAt p = false := by
          unfold FS.existsAt
          rw [hnotf]
          cases hb : fsc.isdir p with
          | false => rfl
          | true => exact absurd (mem_dirs_of_isdir hb) hmem
        unfold pruneChain
        simp only [hex, Bool.false_eq_true, if_false]
        apply ih p.dropLast fsc hfuel' hdp' hnof
        intro q hq hq1 hq2
        obtain ⟨h1, h2⟩ := hsub q hq hq1 hq2
        have hqp : q ≠ p := by
          intro hc
          subst hc
          exact hmem hq
        have hqlt : q.length < p.length := by
          rcases Nat.lt_or_ge q.length p.length with h | h
          · exact h
          · exact absurd (eq_of_isPre_length h1 h) hqp
        refine ⟨?_, ?_⟩
        · rw [List.dropLast_eq_take]
          exact isPre_take_of q p (p.length - 1) h1 (by omega)
        · rw [List.length_dropLast]
          omega

/-- A directory holding a surviving file is never pruned. -/
theorem isdir_pruneDirs_parent (fs : FS) (p root q : Path) (hq : fs.isfile q = true)
    (hqne : q ≠ []) (hd : fs.isdir q.dropLast = true) :
    (fs.pruneDirs p root).isdir q.dropLast = true := by
  by_cases hmem : q.dropLast ∈ (fs.pruneDirs p root).dirs
  · exact isdir_of_mem_dirs hmem
  · exfalso
    obtain ⟨_, _, _, hnil⟩ :=
      pruneDirs_removed fs p root q.dropLast (mem_dirs_of_isdir hd) hmem
    obtain ⟨e, he, hex⟩ := (isfile_iff_exists fs q).mp hq
    have he' : e ∈ (fs.pruneDirs p root).files := by
      rw [files_pruneDirs]
      exact he
    obtain ⟨x, hx⟩ : ∃ x, q.getLast? = some x := by
      cases hl : q.getLast? with
      | none => exact absurd (List.getLast?_eq_none_iff.mp hl) hqne
      | some x => exact ⟨x, rfl⟩
    have hmem2 := childNames_complete (fs.pruneDirs p root) e he' (by rw [hex]; exact hqne) x
      (by rw [hex]; exact hx)
    rw [hex, hnil] at hmem2
    cases hmem2

/-- Run-level specification of `External.remove_item`, for a state whose
directory names near the removed path carry no companion-art extension:
the call succeeds, clears the attribute, only deletes files at the removed
path or inside its directory, never creates files, only removes
directories, and keeps the collection root. -/
theorem remove_item_run (c : External) (fs : FS) (i : Item) (q : Path)
    (hq : c.get_path i = some (.vbytes q))
    (hqdir : fs.isdir q.dropLast = true)
    (hkeys : ∀ e ∈ fs.files, e.1 ≠ [])
    (hdirsne : ∀ d' ∈ fs.dirs, d' ≠ [])
    (hsubart : ∀ d' ∈ fs.dirs, d'.dropLast = q.dropLast →
      ∀ x, d'.getLast? = some x → c.other_ext.contains (extOf x) = false) :
    ∃ fs' effs', c.remove_item fs i
        = .ok (fs', { i with attrs := i.attrs.filter (fun e => e.1 ≠ c.path_key) }, effs')
      ∧ (∀ x, x ≠ q →
          ((∀ xl, x.getLast? = some xl → c.other_ext.contains (extOf xl) = false)
            ∨ x.dropLast ≠ q.dropLast) →
          fs'.getmtime x = fs.getmtime x)
      ∧ (∀ x, fs'.isfile x = true → fs.isfile x = true)
      ∧ (∀ d', d' ∈ fs'.dirs → d' ∈ fs.dirs)
      ∧ (fs.isdir c.directory = true → fs'.isdir c.directory = true)
      ∧ (∀ e ∈ fs'.files, e.1 ≠ [])
      ∧ (∀ x, x ≠ [] → fs'.isfile x = true → fs.isdir x.dropLast = true →
          fs'.isdir x.dropLast = true) := by
  have hkeys1 : ∀ e ∈ (fs.removeFile q).files, e.1 ≠ [] :=
    fun e he => hkeys e (List.mem_of_mem_filter he)
  have hqd1 : (fs.removeFile q).isdir q.dropLast = true := by
    rw [isdir_removeFile]
    exact hqdir
  by_cases hart : ((fs.removeFile q).childNames q.dropLast).all
      (fun f => c.other_ext.contains (extOf f)) = true
  · have hnosub : ∀ d' ∈ (fs.removeFile q).dirs, d'.dropLast ≠ q.dropLast := by
      intro d' hd' hc
      have hd'fs : d' ∈ fs.dirs := by rwa [dirs_removeFile] at hd'
      have hd'ne : d' ≠ [] := hdirsne d' hd'fs
      obtain ⟨x, hx⟩ : ∃ x, d'.getLast? = some x := by
        cases hl : d'.getLast? with
        | none => exact absurd (List.getLast?_eq_none_iff.mp hl) hd'ne
        | some x => exact ⟨x, rfl⟩
      have hmem : x ∈ (fs.removeFile q).childNames q.dropLast := by
        rw [← hc]
        exact childNames_complete_dir (fs.removeFile q) d' hd' hd'ne x hx
      have h1 := List.all_eq_true.mp hart x hmem
      have h2 := hsubart d' hd'fs hc x hx
      rw [h2] at h1
      cases h1
    obtain ⟨effs2, heq⟩ := rmEntries_spec q.dropLast ((fs.removeFile q).childNames q.dropLast)
      (fs.removeFile q) [] hnosub
    have hra : c.remove_albumart (fs.removeFile q) q
        = .ok (⟨(fs.removeFile q).files.filter
            (fun e => !(decide (e.1 ∈ (((fs.removeFile q).childNames q.dropLast).map
              (fun f => q.dropLast ++ [f]))))), (fs.removeFile q).dirs⟩, [] ++ effs2) := by
      unfold External.remove_albumart
      rw [if_pos hqd1, if_pos hart]
      exact heq
    set fs2 : FS := ⟨(fs.removeFile q).files.filter
        (fun e => !(decide (e.1 ∈ (((fs.removeFile q).childNames q.dropLast).map
          (fun f => q.dropLast ++ [f]))))), (fs.removeFile q).dirs⟩ with hfs2
    have hfiles2 : fs2.files = (fs.removeFile q).files.filter
        (fun e => decide (e.1.dropLast ≠ q.dropLast)) := by
      rw [hfs2]
      exact artFilter_eq (fs.removeFile q) q.dropLast hkeys1
    have hstep : c.remove_item fs i
        = .ok (fs2.pruneDirs q c.directory,
            { i with attrs := i.attrs.filter (fun e => e.1 ≠ c.path_key) },
            (if fs.isfile q then [.removedFile q] else []) ++ ([] ++ effs2) ++ [.pruned q]) := by
      unfold External.remove_item
      rw [hq]
      simp only [Value.asPath]
      rw [hra]
    refine ⟨fs2.pruneDirs q c.directory, _, hstep, ?_, ?_, ?_, ?_, ?_, ?_⟩
    · intro x hxq hxcond
      rw [getmtime_pruneDirs]
      by_cases hdl : x.dropLast = q.dropLast
      · have hxart : ∀ xl, x.getLast? = some xl → c.other_ext.contains (extOf xl) = false := by
          rcases hxcond with h | h
          · exact h
          · exact absurd hdl h
        cases hfsx : fs.getmtime x with
        | some t =>
          obtain ⟨e, he, hex⟩ : ∃ e ∈ fs.files, e.1 = x := by
            apply (isfile_iff_exists fs x).mp
            rw [isfile_eq_isSome, hfsx]
            rfl
          have he1 : e ∈ (fs.removeFile q).files := by
            unfold FS.removeFile
            apply List.mem_filter.mpr
            refine ⟨he, ?_⟩
            simp [hex, hxq]
          obtain ⟨xl, hxl⟩ : ∃ xl, e.1.getLast? = some xl := by
            cases hl : e.1.getLast? with
            | none => exact absurd (List.getLast?_eq_none_iff.mp hl) (hkeys e he)
            | some xl => exact ⟨xl, rfl⟩
          have hmem : xl ∈ (fs.removeFile q).childNames q.dropLast := by
            have := childNames_complete (fs.removeFile q) e he1 (hkeys e he) xl hxl
            rwa [hex, hdl] at this
          have h1 := List.all_eq_true.mp hart xl hmem
          have h2 := hxart xl (hex ▸ hxl)
          rw [h2] at h1
          cases h1
        | none =>
          have h1 : (fs.removeFile q).getmtime x = none := by
            rw [getmtime_removeFile]
            simp [hxq, hfsx]
          have h2 : fs2.getmtime x = none := by
            rw [hfs2]
            exact getmtime_none_filter (fs.removeFile q).files (fs.removeFile q).dirs
              (fs.removeFile q).dirs _ x h1
          rw [h2]
      · have h1 : fs2.getmtime x
            = FS.getmtime ⟨(fs.removeFile q).files, (fs.removeFile q).dirs⟩ x := by
          rw [getmtime_files_eq fs2 ⟨(fs.removeFile q).files.filter
              (fun e => decide (e.1.dropLast ≠ q.dropLast)), (fs.removeFile q).dirs⟩ hfiles2]
          exact getmtime_filter_keep (fs.removeFile q).files (fs.removeFile q).dirs _ x
            (by intro e _ hex; simp [hex, hdl])
        rw [h1]
        have h2 : FS.getmtime ⟨(fs.removeFile q).files, (fs.removeFile q).dirs⟩ x
            = (fs.removeFile q).getmtime x := rfl
        rw [h2, getmtime_removeFile]
        simp [hxq]
    · intro x hx
      rw [isfile_pruneDirs] at hx
      have hx2 : ∃ e ∈ fs2.files, e.1 = x := (isfile_iff_exists fs2 x).mp hx
      obtain ⟨e, he, hex⟩ := hx2
      rw [hfs2] at he
      apply (isfile_iff_exists fs x).mpr
      exact ⟨e, List.mem_of_mem_filter (List.mem_of_mem_filter he), hex⟩
    · intro d' hd'
      have h1 := dirs_pruneDirs_sub fs2 q c.directory d' hd'
      rw [hfs2] at h1
      rwa [dirs_removeFile] at h1
    · intro hroot
      apply pruneDirs_root
      apply isdir_of_mem_dirs
      rw [hfs2]
      rw [dirs_removeFile]
      exact mem_dirs_of_isdir hroot
    · intro e he
      rw [files_pruneDirs] at he
      rw [hfs2] at he
      exact hkeys1 e (List.mem_of_mem_filter he)
    · intro x hxne hxf hxd
      have hxf2 : fs2.isfile x = true := by
        rw [isfile_pruneDirs] at hxf
        exact hxf
      have hxd2 : fs2.isdir x.dropLast = true := by
        rw [hfs2]
        exact hxd
      exact isdir_pruneDirs_parent fs2 q c.directory x hxf2 hxne hxd2
  · simp only [Bool.not_eq_true] at hart
    have hra : c.remove_albumart (fs.removeFile q) q = .ok (fs.removeFile q, []) := by
      unfold External.remove_albumart
      rw [if_pos hqd1, if_neg (by rw [hart]; simp)]
    have hstep : c.remove_item fs i
        = .ok ((fs.removeFile q).pruneDirs q c.directory,
            { i with attrs := i.attrs.filter (fun e => e.1 ≠ c.path_key) },
            (if fs.isfile q then [.removedFile q] else []) ++ [] ++ [.pruned q]) := by
      unfold External.remove_item
      rw [hq]
      simp only [Value.asPath]
      rw [hra]
    refine ⟨(fs.removeFile q).pruneDirs q c.directory, _, hstep, ?_, ?_, ?_, ?_, ?_, ?_⟩
    · intro x hxq _
      rw [getmtime_pruneDirs, getmtime_removeFile]
      simp [hxq]
    · intro x hx
      rw [isfile_pruneDirs, isfile_removeFile] at hx
      simp only [Bool.and_eq_true] at hx
      exact hx.2
    · intro d' hd'
      have h1 := dirs_pruneDirs_sub (fs.removeFile q) q c.directory d' hd'
      rwa [dirs_removeFile] at h1
    · intro hroot
      apply pruneDirs_root
      apply isdir_of_mem_dirs
      rw [dirs_removeFile]
      exact mem_dirs_of_isdir hroot
    · intro e he
      rw [files_pruneDirs] at he
      exact hkeys1 e he
    · intro x hxne hxf hxd
      have hxf2 : (fs.removeFile q).isfile x = true := by
        rw [isfile_pruneDirs] at hxf
        exact hxf
      have hxd2 : (fs.removeFile q).isdir x.dropLast = true := by
        rw [isdir_removeFile]
        exact hxd
      exact isdir_pruneDirs_parent (fs.removeFile q) q c.directory x hxf2 hxne hxd2

/-- C7.  `remove_item` deletes the file at the recorded path; then deletes
the remaining entries of that file's containing directory exactly when
every one of them has a companion-art extension (when any entry has a
non-art extension none of them is deleted); prunes the now-empty ancestor
directories strictly below the collection root — every removed directory
is an ancestor of the removed path left empty, the root itself survives,
and conversely every ancestor whose subtree is left without surviving
entries is actually removed; and clears the recorded path attribute of the
persisted item. -/
theorem C7_remove_item_spec (c : External) (fs : FS) (item : Item) (p : Path)
    (hp : c.get_path item = some (.vbytes p))
    (hpdir : fs.isdir p.dropLast = true)
    (hkeys : ∀ e ∈ fs.files, e.1 ≠ [])
    (hnosub : ∀ q ∈ fs.dirs, q.dropLast ≠ p.dropLast) :
    ∃ fs' effs, c.remove_item fs item
        = .ok (fs', { item with attrs := item.attrs.filter (fun e => e.1 ≠ c.path_key) }, effs)
      ∧ fs'.isfile p = false
      ∧ (((fs.removeFile p).childNames p.dropLast).all
            (fun f => c.other_ext.contains (extOf f)) = true →
          fs'.files = (fs.removeFile p).files.filter (fun e => decide (e.1.dropLast ≠ p.dropLast)))
      ∧ (((fs.removeFile p).childNames p.dropLast).all
            (fun f => c.other_ext.contains (extOf f)) = false →
          fs'.files = (fs.removeFile p).files)
      ∧ (∀ q, q ∈ fs.dirs → q ∉ fs'.dirs →
          isPre c.directory q = true ∧ c.directory.length < q.length ∧ isPre q p = true
            ∧ fs'.childNames q = [])
      ∧ (fs.isdir c.directory = true → fs'.isdir c.directory = true)
      ∧ (∀ d, isPre c.directory d = true → c.directory.length < d.length →
          isPre d p = true →
          (∀ x, (fs.removeFile p).isfile x = true → isPre d x = true →
            x.dropLast = p.dropLast
              ∧ ((fs.removeFile p).childNames p.dropLast).all
                  (fun f => c.other_ext.contains (extOf f)) = true) →
          (∀ q ∈ fs.dirs, isPre d q = true → d.length < q.length →
              isPre q p = true ∧ q.length ≤ p.length) →
          fs'.isdir d = false) := by
  have hnop : ∀ e ∈ (fs.removeFile p).files, e.1 ≠ p :=
    no_entry_of_isfile_false (by rw [isfile_removeFile]; simp)
  have hkeys1 : ∀ e ∈ (fs.removeFile p).files, e.1 ≠ [] := by
    intro e he
    exact hkeys e (List.mem_of_mem_filter he)
  have hpd1 : (fs.removeFile p).isdir p.dropLast = true := by
    rw [isdir_removeFile]
    exact hpdir
  by_cases hart : ((fs.removeFile p).childNames p.dropLast).all
      (fun f => c.other_ext.contains (extOf f)) = true
  · obtain ⟨effs2, heq⟩ := rmEntries_spec p.dropLast ((fs.removeFile p).childNames p.dropLast)
      (fs.removeFile p) [] (by rw [dirs_removeFile]; exact hnosub)
    have hra : c.remove_albumart (fs.removeFile p) p
        = .ok (⟨(fs.removeFile p).files.filter
            (fun e => !(decide (e.1 ∈ (((fs.removeFile p).childNames p.dropLast).map
              (fun f => p.dropLast ++ [f]))))), (fs.removeFile p).dirs⟩, [] ++ effs2) := by
      unfold External.remove_albumart
      rw [if_pos hpd1, if_pos hart]
      exact heq
    set fs2 : FS := ⟨(fs.removeFile p).files.filter
        (fun e => !(decide (e.1 ∈ (((fs.removeFile p).childNames p.dropLast).map
          (fun f => p.dropLast ++ [f]))))), (fs.removeFile p).dirs⟩ with hfs2
    have hstep : c.remove_item fs item
        = .ok (fs2.pruneDirs p c.directory,
            { item with attrs := item.attrs.filter (fun e => e.1 ≠ c.path_key) },
            (if fs.isfile p then [.removedFile p] else []) ++ ([] ++ effs2) ++ [.pruned p]) := by
      unfold External.remove_item
      rw [hp]
      simp only [Value.asPath]
      rw [hra]
    have hfiles2 : fs2.files = (fs.removeFile p).files.filter
        (fun e => decide (e.1.dropLast ≠ p.dropLast)) := by
      rw [hfs2]
      exact artFilter_eq (fs.removeFile p) p.dropLast hkeys1
    have hdirs2 : fs2.dirs = fs.dirs := by
      show (fs.removeFile p).dirs = fs.dirs
      rw [dirs_removeFile]
    have hfiles3 : (fs2.pruneDirs p c.directory).files = fs2.files := files_pruneDirs fs2 p c.directory
    refine ⟨fs2.pruneDirs p c.directory, _, hstep, ?_, ?_, ?_, ?_, ?_, ?_⟩
    · apply isfile_of_no_entry
      rw [hfiles3]
      intro e he
      exact hnop e (List.mem_of_mem_filter (hfs2 ▸ he))
    · intro _
      rw [hfiles3, hfiles2]
    · intro hfalse
      rw [hart] at hfalse
      cases hfalse
    · intro q hq hq'
      have hq2 : q ∈ fs2.dirs := by rw [hfs2]; rw [dirs_removeFile]; exact hq
      exact pruneDirs_removed fs2 p c.directory q hq2 hq'
    · intro hroot
      apply pruneDirs_root
      apply isdir_of_mem_dirs
      rw [hfs2]
      rw [dirs_removeFile]
      exact mem_dirs_of_isdir hroot
    · intro d hd1 hd2 hd3 hfils hdirsub
      have hnof : ∀ x, fs2.isfile x = true → isPre d x = false := by
        intro x hx
        cases hpre : isPre d x with
        | false => rfl
        | true =>
          exfalso
          obtain ⟨e, he, hex⟩ := (isfile_iff_exists fs2 x).mp hx
          rw [hfiles2] at he
          have he1 : e ∈ (fs.removeFile p).files := List.mem_of_mem_filter he
          have hxd : x.dropLast ≠ p.dropLast := by
            have := List.of_mem_filter he
            rw [hex] at this
            simpa using this
          have hxf : (fs.removeFile p).isfile x = true :=
            (isfile_iff_exists _ x).mpr ⟨e, he1, hex⟩
          exact hxd (hfils x hxf hpre).1
      have hclear := pruneChain_clears c.directory d hd1 hd2 p.length p fs2
        (Nat.sub_le _ _) hd3 hnof (by
          intro q hq hq1 hq2
          rw [hdirs2] at hq
          exact hdirsub q hq hq1 hq2)
      cases hb : (fs2.pruneDirs p c.directory).isdir d with
      | false => rfl
      | true => exact absurd (mem_dirs_of_isdir hb) hclear
  · simp only [Bool.not_eq_true] at hart
    have hra : c.remove_albumart (fs.removeFile p) p = .ok (fs.removeFile p, []) := by
      unfold External.remove_albumart
      rw [if_pos hpd1, if_neg (by rw [hart]; simp)]
    have hstep : c.remove_item fs item
        = .ok ((fs.removeFile p).pruneDirs p c.directory,
            { item with attrs := item.attrs.filter (fun e => e.1 ≠ c.path_key) },
            (if fs.isfile p then [.removedFile p] else []) ++ [] ++ [.pruned p]) := by
      unfold External.remove_item
      rw [hp]
      simp only [Value.asPath]
      rw [hra]
    have hfiles3 : ((fs.removeFile p).pruneDirs p c.directory).files = (fs.removeFile p).files :=
      files_pruneDirs _ p c.directory
    refine ⟨(fs.removeFile p).pruneDirs p c.directory, _, hstep, ?_, ?_, ?_, ?_, ?_, ?_⟩
    · apply isfile_of_no_entry
      rw [hfiles3]
      exact hnop
    · intro htrue
      rw [hart] at htrue
      cases htrue
    · intro _
      exact hfiles3
    · intro q hq hq'
      have hq2 : q ∈ (fs.removeFile p).dirs := by rw [dirs_removeFile]; exact hq
      exact pruneDirs_removed (fs.removeFile p) p c.directory q hq2 hq'
    · intro hroot
      apply pruneDirs_root
      apply isdir_of_mem_dirs
      rw [dirs_removeFile]
      exact mem_dirs_of_isdir hroot
    · intro d hd1 hd2 hd3 hfils hdirsub
      have hnof : ∀ x, (fs.removeFile p).isfile x = true → isPre d x = false := by
        intro x hx
        cases hpre : isPre d x with
        | false => rfl
        | true =>
          exfalso
          have h2 := (hfils x hx hpre).2
          rw [hart] at h2
          simp at h2
      have hclear := pruneChain_clears c.directory d hd1 hd2 p.length p (fs.removeFile p)
        (Nat.sub_le _ _) hd3 hnof (by
          intro q hq hq1 hq2
          rw [dirs_removeFile] at hq
          exact hdirsub q hq hq1 hq2)
      cases hb : ((fs.removeFile p).pruneDirs p c.directory).isdir d with
      | false => rfl
      | true => exact absurd (mem_dirs_of_isdir hb) hclear

/-- The C7 witness item: tracked at `alt/sub/t.mp3`, unmatched elsewhere. -/
def itC7 : Item := ⟨2, ["lib", "b.mp3"], 320, "MP3", [("alt.test", Value.vbytes ["alt", "sub", "t.mp3"])]⟩

/-- The C7 witness filesystem: the tracked file shares its directory with a
cover image only. -/
def fsC7 : FS :=
  ⟨[(["alt", "sub", "t.mp3"], 3), (["alt", "sub", "cover.jpg"], 2), (["lib", "b.mp3"], 9)],
   [["alt"], ["alt", "sub"]]⟩

/-- Witness for C7: besides the removal/cleanup facts, the affirmative
prune conjunct applies to the emptied directory `alt/sub`, showing it is
actually removed. -/
theorem C7_witness :
    ∃ fs' effs, cW.remove_item fsC7 itC7
        = .ok (fs', { itC7 with attrs := itC7.attrs.filter (fun e => e.1 ≠ cW.path_key) }, effs)
      ∧ fs'.isfile ["alt", "sub", "t.mp3"] = false
      ∧ (((fsC7.removeFile ["alt", "sub", "t.mp3"]).childNames ["alt", "sub"]).all
            (fun f => cW.other_ext.contains (extOf f)) = true →
          fs'.files = (fsC7.removeFile ["alt", "sub", "t.mp3"]).files.filter
            (fun e => decide (e.1.dropLast ≠ ["alt", "sub"])))
      ∧ (((fsC7.removeFile ["alt", "sub", "t.mp3"]).childNames ["alt", "sub"]).all
            (fun f => cW.other_ext.contains (extOf f)) = false →
          fs'.files = (fsC7.removeFile ["alt", "sub", "t.mp3"]).files)
      ∧ (∀ q, q ∈ fsC7.dirs → q ∉ fs'.dirs →
          isPre cW.directory q = true ∧ cW.directory.length < q.length
            ∧ isPre q ["alt", "sub", "t.mp3"] = true ∧ fs'.childNames q = [])
      ∧ (fsC7.isdir cW.directory = true → fs'.isdir cW.directory = true)
      ∧ (∀ d, isPre cW.directory d = true → cW.directory.length < d.length →
          isPre d ["alt", "sub", "t.mp3"] = true →
          (∀ x, (fsC7.removeFile ["alt", "sub", "t.mp3"]).isfile x = true → isPre d x = true →
            x.dropLast = ["alt", "sub"]
              ∧ ((fsC7.removeFile ["alt", "sub", "t.mp3"]).childNames ["alt", "sub"]).all
                  (fun f => cW.other_ext.contains (extOf f)) = true) →
          (∀ q ∈ fsC7.dirs, isPre d q = true → d.length < q.length →
              isPre q ["alt", "sub", "t.mp3"] = true
                ∧ q.length ≤ (["alt", "sub", "t.mp3"] : Path).length) →
          fs'.isdir d = false) :=
  C7_remove_item_spec cW fsC7 itC7 ["alt", "sub", "t.mp3"] (by decide) (by decide) (by decide)
    (by decide)

theorem outside_ne_and_dropLast_ne {dir x q : Path} (hdir : dir ≠ [])
    (hq1 : isPre dir q = true) (hq2 : dir.length < q.length)
    (hx : isPre dir x = false) : x ≠ q ∧ x.dropLast ≠ q.dropLast := by
  constructor
  · intro hc
    rw [hc, hq1] at hx
    cases hx
  · intro hc
    have hqd : isPre dir q.dropLast = true := isPre_dropLast_of hq1 hq2
    have hqdne : q.dropLast ≠ [] := by
      have h1 : q.dropLast.length = q.length - 1 := List.length_dropLast q
      intro hnil
      rw [hnil] at h1
      simp at h1
      have : 0 < dir.length := List.length_pos.mpr hdir
      omega
    by_cases hxnil : x = []
    · apply hqdne
      rw [← hc, hxnil]
      rfl
    · have h1 : isPre dir x.dropLast = true := by rw [hc]; exact hqd
      have h2 : isPre dir x = true := isPre_trans h1 (isPre_dropLast_self x)
      rw [h2] at hx
      cases hx

theorem getmtime_mem (fs : FS) (x : Path) (t : Nat) (h : fs.getmtime x = some t) :
    ∃ e ∈ fs.files, e.1 = x ∧ e.2 = t := by
  unfold FS.getmtime at h
  cases hf : fs.files.find? (fun e => e.1 = x) with
  | none => rw [hf] at h; simp at h
  | some e =>
    rw [hf] at h
    have h1 : e ∈ fs.files := List.mem_of_find?_eq_some hf
    have h2 : e.1 = x := by simpa using List.find?_some hf
    have h3 : e.2 = t := by simpa using h
    exact ⟨e, h1, h2, h3⟩

/-- Whether a path's last component is free of companion-art extensions. -/
def artFreeLast (c : External) (p : Path) : Bool :=
  match p.getLast? with
  | some x => !(c.other_ext.contains (extOf x))
  | none => true

theorem artFreeLast_elim {c : External} {p : Path} (h : artFreeLast c p = true) :
    ∀ x, p.getLast? = some x → c.other_ext.contains (extOf x) = false := by
  intro x hx
  unfold artFreeLast at h
  rw [hx] at h
  simpa using h

/-- Whether an item's recorded value, when present, is a byte path. -/
def valueWt (c : External) (i : Item) : Bool :=
  match c.get_path i with
  | some v => v.decodeUtf8.isSome
  | none => true

theorem valueWt_elim {c : External} {i : Item} {v : Value} (h : valueWt c i = true)
    (hv : c.get_path i = some v) : v.decodeUtf8.isSome = true := by
  unfold valueWt at h
  rw [hv] at h
  exact h

/-- Whether an item's recorded byte path, when present and nonempty, lies
strictly below the collection directory. -/
def recIn (c : External) (i : Item) : Bool :=
  match c.get_path i with
  | some (.vbytes q) =>
    q.isEmpty || (isPre c.directory q && decide (c.directory.length < q.length))
  | _ => true

theorem recIn_elim {c : External} {i : Item} {q : Path} (h : recIn c i = true)
    (hv : c.get_path i = some (.vbytes q)) (hq : q ≠ []) :
    isPre c.directory q = true ∧ c.directory.length < q.length := by
  unfold recIn at h
  rw [hv] at h
  have h' : (q.isEmpty || (isPre c.directory q && decide (c.directory.length < q.length)))
      = true := h
  rw [isEmpty_false_of_ne_nil hq] at h'
  simpa using h'

/-- Whether an item's recorded byte path, when present, avoids another
item's destination. -/
def recNeDest (c : External) (i j : Item) : Bool :=
  match c.get_path i with
  | some (.vbytes q) => decide (q ≠ c.destination j)
  | _ => true

theorem recNeDest_elim {c : External} {i j : Item} {q : Path} (h : recNeDest c i j = true)
    (hv : c.get_path i = some (.vbytes q)) : q ≠ c.destination j := by
  unfold recNeDest at h
  rw [hv] at h
  simpa using h

/-- Whether an item's recorded byte path, when present and nonempty, still
denotes an existing file inside an existing directory and carries no
companion-art extension (the facts `remove_item`'s deletion, `os.listdir`
and art cleanup rely on). -/
def recRemovable (c : External) (fs0 : FS) (i : Item) : Bool :=
  match c.get_path i with
  | some (.vbytes q) =>
    q.isEmpty || (fs0.isfile q && fs0.isdir q.dropLast && artFreeLast c q)
  | _ => true

theorem recRemovable_elim {c : External} {fs0 : FS} {i : Item} {q : Path}
    (h : recRemovable c fs0 i = true) (hv : c.get_path i = some (.vbytes q)) (hq : q ≠ []) :
    fs0.isfile q = true ∧ fs0.isdir q.dropLast = true ∧ artFreeLast c q = true := by
  unfold recRemovable at h
  rw [hv] at h
  have h' : (q.isEmpty || (fs0.isfile q && fs0.isdir q.dropLast && artFreeLast c q))
      = true := h
  rw [isEmpty_false_of_ne_nil hq] at h'
  simp only [Bool.false_or, Bool.and_eq_true] at h'
  exact ⟨h'.1.1, h'.1.2, h'.2⟩

/-- Whether an item's recorded byte path, when present and nonempty,
differs from another item's recorded byte path. -/
def recNeRec (c : External) (i j : Item) : Bool :=
  match c.get_path i with
  | some (.vbytes q) =>
    q.isEmpty ||
      (match c.get_path j with
       | some (.vbytes r) => decide (q ≠ r)
       | _ => true)
  | _ => true

theorem recNeRec_elim {c : External} {i j : Item} {q r : Path}
    (h : recNeRec c i j = true) (hvi : c.get_path i = some (.vbytes q)) (hq : q ≠ [])
    (hvj : c.get_path j = some (.vbytes r)) : q ≠ r := by
  unfold recNeRec at h
  rw [hvi] at h
  have h' : (q.isEmpty ||
      (match c.get_path j with
       | some (.vbytes r) => decide (q ≠ r)
       | _ => true)) = true := h
  rw [isEmpty_false_of_ne_nil hq, hvj] at h'
  simpa using h'

/-- The removal-liveness invariant of the update loop: every
still-unprocessed unmatched item with a nonempty recorded byte path still
has its recorded file on disk and that file's containing directory
present (so its REMOVE pass can run `os.listdir`). -/
def RecInv (c : External) (lib : Lib) (mids : List Nat) (fs : FS)
    (procIds : List Nat) : Prop :=
  ∀ i ∈ lib.items, isMatched c mids i = false → i.id ∉ procIds →
    ∀ q, c.get_path i = some (Value.vbytes q) → q ≠ [] →
      fs.isfile q = true ∧ fs.isdir q.dropLast = true

theorem RecInv_mono (c : External) (lib : Lib) (mids : List Nat) (fs : FS)
    (procIds ext : List Nat) (h : RecInv c lib mids fs procIds) :
    RecInv c lib mids fs (procIds ++ ext) := by
  intro i hi hm hnp q hq hqne
  exact h i hi hm (fun hc => hnp (List.mem_append_left _ hc)) q hq hqne

/-- The system invariants of claim C3, resolved at the start of a run:
well-formed ids, well-typed recorded values, primary files present and
outside the collection directory, a timestamp bound, the target directory
present, destinations strictly below the collection root and named without
companion-art extensions, recorded paths strictly below the root and not
aliasing other items' destinations, injective destinations, free
destination slots, art-free directory names, unmatched tracked files still
on disk inside existing directories with art-free names, recorded paths
pairwise distinct across items, and query/template functions that do not
depend on the stored attributes. -/
structure Hyps (c : External) (lib : Lib) (fs0 : FS) (now : Nat) : Prop where
  hids : (lib.items.map Item.id).Nodup
  hwt : ∀ i ∈ lib.items, valueWt c i = true
  hsrc : ∀ i ∈ lib.items, isMatched c (matchedIds c lib) i = true → fs0.isfile i.path = true
  hnow : ∀ e ∈ fs0.files, e.2 ≤ now
  hdir : fs0.isdir c.directory = true
  hdirne : c.directory ≠ []
  hfmt : ∀ i ∈ lib.items, isMatched c (matchedIds c lib) i = true → c.pathFmt i ≠ []
  hsrcout : ∀ i ∈ lib.items, isPre c.directory i.path = false
  hrecin : ∀ i ∈ lib.items, recIn c i = true
  hrecdest : ∀ i ∈ lib.items, ∀ j ∈ lib.items, i.id ≠ j.id →
    isMatched c (matchedIds c lib) j = true → recNeDest c i j = true
  hdestinj : ∀ i ∈ lib.items, ∀ j ∈ lib.items, isMatched c (matchedIds c lib) i = true →
    isMatched c (matchedIds c lib) j = true → c.destination i = c.destination j → i.id = j.id
  hdest0 : ∀ j ∈ lib.items, isMatched c (matchedIds c lib) j = true →
    c.get_path j ≠ some (.vbytes (c.destination j)) → fs0.isfile (c.destination j) = false
  hart : ∀ j ∈ lib.items, isMatched c (matchedIds c lib) j = true →
    artFreeLast c (c.destination j) = true
  hdirnames : ∀ d ∈ fs0.dirs, artFreeLast c d = true
  hdirnames2 : ∀ j ∈ lib.items, isMatched c (matchedIds c lib) j = true →
    ∀ x ∈ (c.destination j).dropLast, c.other_ext.contains (extOf x) = false
  hremv : ∀ i ∈ lib.items, isMatched c (matchedIds c lib) i = false →
    recRemovable c fs0 i = true
  hrecinj : ∀ i ∈ lib.items, ∀ j ∈ lib.items, i.id ≠ j.id → recNeRec c i j = true
  hq : ∀ (i : Item) (a : List (String × Value)), c.queryItem { i with attrs := a } = c.queryItem i
  hpf : ∀ (i : Item) (a : List (String × Value)), c.pathFmt { i with attrs := a } = c.pathFmt i
  hkeys0 : ∀ e ∈ fs0.files, e.1 ≠ []
  hdirsne0 : ∀ d ∈ fs0.dirs, d ≠ []

/-- The state invariant maintained by the update loop: paths outside the
collection directory are untouched, files were only created at processed
matched items' destinations, the collection root still exists, directories
come from the initial state or from created destination ancestors, and no
file sits at the empty path. -/
def StInv (c : External) (lib : Lib) (fs0 : FS) (mids : List Nat) (fs : FS)
    (procIds : List Nat) : Prop :=
  (∀ x, isPre c.directory x = false → fs.getmtime x = fs0.getmtime x)
  ∧ (∀ x, fs.isfile x = true → fs0.isfile x = true
      ∨ ∃ j ∈ lib.items, isMatched c mids j = true ∧ j.id ∈ procIds ∧ x = c.destination j)
  ∧ fs.isdir c.directory = true
  ∧ (∀ d ∈ fs.dirs, d ∈ fs0.dirs
      ∨ ∃ j ∈ lib.items, isMatched c mids j = true ∧ d ∈ properAncestors (c.destination j))
  ∧ (∀ e ∈ fs.files, e.1 ≠ [])

/-- The end state reached for a matched item: its alternative file is at
the destination, no older than its primary file (which is present). -/
def DestFact (c : External) (fs : FS) (i : Item) : Prop :=
  ∃ t ms, fs.getmtime (c.destination i) = some t ∧ fs.getmtime i.path = some ms ∧ ms ≤ t

/-- Paths whose mtime one step of the loop for item `i` cannot change:
anything outside the collection directory, and anything that has no
companion-art name, is not `i`'s recorded path and is not `i`'s
destination. -/
def PresCondStep (c : External) (i : Item) (mids : List Nat) (x : Path) : Prop :=
  isPre c.directory x = false
  ∨ ((∀ xl, x.getLast? = some xl → c.other_ext.contains (extOf xl) = false)
      ∧ (∀ qv, c.get_path i = some (Value.vbytes qv) → x ≠ qv)
      ∧ (isMatched c mids i = true → x ≠ c.destination i))

/-- The output shape of an unmatched item: only the attributes may have
changed, and the recorded value is now absent or falsy. -/
def UnmItemOut (c : External) (i i' : Item) : Prop :=
  (∃ a, i' = { i with attrs := a })
  ∧ (c.get_path i' = none ∨ ∃ v, c.get_path i' = some v ∧ v.truthy = false)

theorem StInv_mono (c : External) (lib : Lib) (fs0 : FS) (mids : List Nat) (fs : FS)
    (procIds ext : List Nat) (h : StInv c lib fs0 mids fs procIds) :
    StInv c lib fs0 mids fs (procIds ++ ext) := by
  obtain ⟨h1, h2, h3, h4, h5⟩ := h
  refine ⟨h1, ?_, h3, h4, h5⟩
  intro x hx
  rcases h2 x hx with h0 | ⟨j, hj, hjm, hjp, hje⟩
  · exact Or.inl h0
  · exact Or.inr ⟨j, hj, hjm, List.mem_append_left _ hjp, hje⟩

theorem keys_setFile (fs : FS) (p : Path) (t : Nat) (hp : p ≠ [])
    (h : ∀ e ∈ fs.files, e.1 ≠ []) : ∀ e ∈ (fs.setFile p t).files, e.1 ≠ [] := by
  intro e he
  unfold FS.setFile at he
  rcases List.mem_cons.mp he with h1 | h1
  · rw [h1]; exact hp
  · exact h e (List.mem_of_mem_filter h1)

theorem isdir_setFile (fs : FS) (p : Path) (t : Nat) (q : Path) :
    (fs.setFile p t).isdir q = fs.isdir q := rfl

theorem dirs_setFile (fs : FS) (p : Path) (t : Nat) : (fs.setFile p t).dirs = fs.dirs := rfl

theorem dest_pre (c : External) (i : Item) : isPre c.directory (c.destination i) = true :=
  isPre_append_self c.directory (c.pathFmt i)

theorem dest_len (c : External) (i : Item) (h : c.pathFmt i ≠ []) :
    c.directory.length < (c.destination i).length := by
  unfold External.destination
  rw [List.length_append]
  have : 0 < (c.pathFmt i).length := List.length_pos.mpr h
  omega

/-- One pass of the `External.update` loop: under the C3 hypotheses and
the loop invariant the step succeeds, extends the invariant, preserves
every protected path, and leaves the item in its characterized state. -/
theorem stepItem_run (c : External) (lib : Lib) (fs0 : FS) (now : Nat)
    (H : Hyps c lib fs0 now) (i : Item) (hi : i ∈ lib.items)
    (fs : FS) (pend : List Item) (procIds : List Nat)
    (hinv : StInv c lib fs0 (matchedIds c lib) fs procIds)
    (hnotproc : i.id ∉ procIds)
    (hrecI : RecInv c lib (matchedIds c lib) fs procIds) :
    ∃ i' fs' effs' pendAdd,
      c.stepItem (matchedIds c lib) now fs pend i = .ok (i', fs', effs', pend ++ pendAdd)
      ∧ StInv c lib fs0 (matchedIds c lib) fs' (procIds ++ [i.id])
      ∧ (∀ x, PresCondStep c i (matchedIds c lib) x → fs'.getmtime x = fs.getmtime x)
      ∧ i'.id = i.id
      ∧ (isMatched c (matchedIds c lib) i = true →
          (pendAdd = [i] ∧ i' = i)
          ∨ (pendAdd = [] ∧ c.get_path i' = some (Value.vbytes (c.destination i))
              ∧ (∃ a, i' = { i with attrs := a }) ∧ DestFact c fs' i))
      ∧ (isMatched c (matchedIds c lib) i = false → pendAdd = [] ∧ UnmItemOut c i i')
      ∧ RecInv c lib (matchedIds c lib) fs' (procIds ++ [i.id]) := by
  obtain ⟨inv1, inv2, inv3, inv4, inv5⟩ := hinv
  by_cases hm : isMatched c (matchedIds c lib) i = true
  · -- matched item
    have hsrcfs : fs.getmtime i.path = fs0.getmtime i.path := inv1 i.path (H.hsrcout i hi)
    obtain ⟨ms, hms0⟩ : ∃ ms, fs0.getmtime i.path = some ms :=
      (isfile_iff_getmtime fs0 i.path).mp (H.hsrc i hi hm)
    have hmsle : ms ≤ now := by
      obtain ⟨e, he, _, he2⟩ := getmtime_mem fs0 i.path ms hms0
      rw [← he2]
      exact H.hnow e he
    have hmsfs : fs.getmtime i.path = some ms := by rw [hsrcfs, hms0]
    have hdpre := dest_pre c i
    have hdlen := dest_len c i (H.hfmt i hi hm)
    have hdne : c.destination i ≠ [] := by
      intro hc
      rw [hc] at hdlen
      simp at hdlen
    cases hgp : c.get_path i with
    | none =>
      have hclass : classifyOne c (matchedIds c lib) fs i = .ok (some .ADD) := by
        simp [classifyOne, hm, External.matched_item_action, hgp, Except.map]
      refine ⟨i, fs, [], [i], ?_, StInv_mono _ _ _ _ _ _ _ ⟨inv1, inv2, inv3, inv4, inv5⟩,
        fun x _ => rfl, rfl, fun _ => Or.inl ⟨rfl, rfl⟩,
        (fun hmf => by rw [hm] at hmf; cases hmf),
        RecInv_mono _ _ _ _ _ _ hrecI⟩
      simp [External.stepItem, hclass]
    | some v =>
      obtain ⟨qv, rfl⟩ : ∃ qv, v = Value.vbytes qv := by
        have := valueWt_elim (H.hwt i hi) hgp
        cases v with
        | vbytes q => exact ⟨q, rfl⟩
        | vstr q => simp [Value.decodeUtf8] at this
        | vint n => simp [Value.decodeUtf8] at this
      by_cases hlive : (!qv.isEmpty && fs.isfile qv) = true
      · have hqvne : qv ≠ [] := by
          intro hc
          rw [hc] at hlive
          simp at hlive
        have hfile : fs.isfile qv = true := by
          cases hf : fs.isfile qv with
          | true => rfl
          | false => rw [hf] at hlive; simp at hlive
        obtain ⟨hin1, hin2⟩ := recIn_elim (H.hrecin i hi) hgp hqvne
        by_cases hdiff : qv = c.destination i
        · -- same location: WRITE or NOOP
          subst hdiff
          obtain ⟨md, hmd⟩ : ∃ md, fs.getmtime (c.destination i) = some md :=
            (isfile_iff_getmtime fs (c.destination i)).mp hfile
          have hsrcne : i.path ≠ c.destination i :=
            (outside_ne_and_dropLast_ne H.hdirne hin1 hin2 (H.hsrcout i hi)).1
          by_cases hlt : md < ms
          · -- WRITE
            have hclass : classifyOne c (matchedIds c lib) fs i = .ok (some .WRITE) := by
              simp [classifyOne, hm, External.matched_item_action, hgp, Value.decodeUtf8,
                hlive, hmd, hmsfs, hlt, Except.map]
            have hstep : c.stepItem (matchedIds c lib) now fs pend i
                = .ok (i, fs.setFile (c.destination i) now, [.wroteTags (c.destination i)],
                    pend) := by
              simp [External.stepItem, hclass, hgp, Value.asPath,
                writeTags_ok fs (c.destination i) now hfile]
            refine ⟨i, fs.setFile (c.destination i) now, [.wroteTags (c.destination i)], [],
              ?_, ?_, ?_, rfl, ?_, ?_, ?_⟩
            · rw [hstep]; simp
            · refine ⟨?_, ?_, inv3, inv4, keys_setFile fs (c.destination i) now hqvne inv5⟩
              · intro x hx
                rw [getmtime_setFile,
                  if_neg (outside_ne_and_dropLast_ne H.hdirne hin1 hin2 hx).1]
                exact inv1 x hx
              · intro x hx
                rw [isfile_setFile] at hx
                simp only [Bool.or_eq_true, decide_eq_true_eq] at hx
                have hfx : fs.isfile x = true := by
                  rcases hx with h1 | h1
                  · rw [h1]; exact hfile
                  · exact h1
                rcases inv2 x hfx with h0 | ⟨j, hj, hjm, hjp, hje⟩
                · exact Or.inl h0
                · exact Or.inr ⟨j, hj, hjm, List.mem_append_left _ hjp, hje⟩
            · intro x hcond
              rw [getmtime_setFile]
              rcases hcond with hx | ⟨hartx, hrec, hdst⟩
              · rw [if_neg (outside_ne_and_dropLast_ne H.hdirne hin1 hin2 hx).1]
              · rw [if_neg (hrec (c.destination i) hgp)]
            · intro _
              refine Or.inr ⟨rfl, hgp, ⟨i.attrs, rfl⟩, now, ms, ?_, ?_, hmsle⟩
              · rw [getmtime_setFile, if_pos rfl]
              · rw [getmtime_setFile, if_neg hsrcne]
                exact hmsfs
            · intro hmf
              rw [hm] at hmf
              cases hmf
            · intro i2 hi2 hm2 hnp2 q2 hq2 hq2ne
              obtain ⟨hf2, hd2⟩ := hrecI i2 hi2 hm2
                (fun hc => hnp2 (List.mem_append_left _ hc)) q2 hq2 hq2ne
              refine ⟨?_, ?_⟩
              · rw [isfile_setFile]
                simp [hf2]
              · rw [isdir_setFile]
                exact hd2
          · -- NOOP
            have hclass : classifyOne c (matchedIds c lib) fs i = .ok (some .NOOP) := by
              simp [classifyOne, hm, External.matched_item_action, hgp, Value.decodeUtf8,
                hlive, hmd, hmsfs, hlt, Except.map]
            have hstep : c.stepItem (matchedIds c lib) now fs pend i
                = .ok (i, fs, [], pend) := by
              simp [External.stepItem, hclass]
            refine ⟨i, fs, [], [], ?_,
              StInv_mono _ _ _ _ _ _ _ ⟨inv1, inv2, inv3, inv4, inv5⟩,
              fun x _ => rfl, rfl, ?_, ?_, RecInv_mono _ _ _ _ _ _ hrecI⟩
            · rw [hstep]; simp
            · intro _
              exact Or.inr ⟨rfl, hgp, ⟨i.attrs, rfl⟩, md, ms, hmd, hmsfs, by omega⟩
            · intro hmf
              rw [hm] at hmf
              cases hmf
        · -- different location: MOVE
          have hdstfree : fs.isfile (c.destination i) = false := by
            cases hdf : fs.isfile (c.destination i) with
            | false => rfl
            | true =>
              exfalso
              rcases inv2 _ hdf with h0 | ⟨j, hj, hjm, hjp, hje⟩
              · have h1 : c.get_path i ≠ some (Value.vbytes (c.destination i)) := by
                  rw [hgp]
                  intro hc
                  injection hc with h2
                  injection h2 with h3
                  exact hdiff h3
                have h2 := H.hdest0 i hi hm h1
                rw [h2] at h0
                cases h0
              · have h3 := H.hdestinj j hj i hi hjm hm hje.symm
                rw [h3] at hjp
                exact hnotproc hjp
          obtain ⟨tq, htq⟩ : ∃ tq, fs.getmtime qv = some tq :=
            (isfile_iff_getmtime fs qv).mp hfile
          have hclass : classifyOne c (matchedIds c lib) fs i = .ok (some .MOVE) := by
            simp [classifyOne, hm, External.matched_item_action, hgp, Value.decodeUtf8,
              hlive, hdiff, Except.map]
          have hmv : (fs.mkdirall (c.destination i)).moveFile qv (c.destination i)
              = .ok (((fs.mkdirall (c.destination i)).removeFile qv).setFile
                  (c.destination i) tq) := by
            apply moveFile_ok
            · exact hdiff
            · rw [getmtime_mkdirall]; exact htq
            · rw [isfile_mkdirall]; exact hdstfree
          have hwr : (((((fs.mkdirall (c.destination i)).removeFile qv).setFile
                (c.destination i) tq).pruneDirs qv.dropLast c.directory)).writeTags
                (c.destination i) now
              = .ok ((((((fs.mkdirall (c.destination i)).removeFile qv).setFile
                  (c.destination i) tq).pruneDirs qv.dropLast c.directory)).setFile
                  (c.destination i) now) := by
            apply writeTags_ok
            rw [isfile_pruneDirs, isfile_setFile]
            simp
          have hstep : c.stepItem (matchedIds c lib) now fs pend i
              = .ok (c.set_path i (c.destination i),
                  (((((fs.mkdirall (c.destination i)).removeFile qv).setFile
                    (c.destination i) tq).pruneDirs qv.dropLast c.directory)).setFile
                    (c.destination i) now,
                  [.mkdirs (c.destination i), .moved qv (c.destination i),
                   .pruned qv.dropLast, .wroteTags (c.destination i)], pend) := by
            simp [External.stepItem, hclass, hgp, Value.asPath, hmv, hwr]
          have hch : ∀ x, x ≠ c.destination i → x ≠ qv →
              ((((((fs.mkdirall (c.destination i)).removeFile qv).setFile
                (c.destination i) tq).pruneDirs qv.dropLast c.directory)).setFile
                (c.destination i) now).getmtime x = fs.getmtime x := by
            intro x h1 h2
            rw [getmtime_setFile, if_neg h1, getmtime_pruneDirs, getmtime_setFile, if_neg h1,
              getmtime_removeFile, if_neg h2, getmtime_mkdirall]
          have hchd : ((((((fs.mkdirall (c.destination i)).removeFile qv).setFile
                (c.destination i) tq).pruneDirs qv.dropLast c.directory)).setFile
                (c.destination i) now).getmtime (c.destination i) = some now := by
            rw [getmtime_setFile, if_pos rfl]
          have hsrcd : i.path ≠ c.destination i :=
            (outside_ne_and_dropLast_ne H.hdirne hdpre hdlen (H.hsrcout i hi)).1
          have hsrcq : i.path ≠ qv :=
            (outside_ne_and_dropLast_ne H.hdirne hin1 hin2 (H.hsrcout i hi)).1
          refine ⟨c.set_path i (c.destination i),
            (((((fs.mkdirall (c.destination i)).removeFile qv).setFile
              (c.destination i) tq).pruneDirs qv.dropLast c.directory)).setFile
              (c.destination i) now,
            [.mkdirs (c.destination i), .moved qv (c.destination i),
             .pruned qv.dropLast, .wroteTags (c.destination i)], [],
            by rw [hstep]; simp, ?_, ?_, rfl, ?_, ?_, ?_⟩
          · refine ⟨?_, ?_, ?_, ?_, ?_⟩
            · intro x hx
              rw [hch x (outside_ne_and_dropLast_ne H.hdirne hdpre hdlen hx).1
                (outside_ne_and_dropLast_ne H.hdirne hin1 hin2 hx).1]
              exact inv1 x hx
            · intro x hx
              rw [isfile_setFile] at hx
              simp only [Bool.or_eq_true, decide_eq_true_eq] at hx
              rcases hx with h1 | h1
              · exact Or.inr ⟨i, hi, hm, by simp, h1⟩
              · rw [isfile_pruneDirs, isfile_setFile] at h1
                simp only [Bool.or_eq_true, decide_eq_true_eq] at h1
                rcases h1 with h2 | h2
                · exact Or.inr ⟨i, hi, hm, by simp, h2⟩
                · rw [isfile_removeFile] at h2
                  simp only [Bool.and_eq_true, decide_eq_true_eq] at h2
                  have h3 : fs.isfile x = true := by
                    rw [← isfile_mkdirall fs (c.destination i) x]
                    exact h2.2
                  rcases inv2 x h3 with h0 | ⟨j, hj, hjm, hjp, hje⟩
                  · exact Or.inl h0
                  · exact Or.inr ⟨j, hj, hjm, List.mem_append_left _ hjp, hje⟩
            · rw [isdir_setFile]
              apply pruneDirs_root
              rw [isdir_setFile, isdir_removeFile]
              exact isdir_mkdirall_of fs _ _ inv3
            · intro d hd
              rw [dirs_setFile] at hd
              have h1 := dirs_pruneDirs_sub _ _ _ _ hd
              rw [dirs_setFile, dirs_removeFile] at h1
              rcases (dirs_mkdirall_mem fs (c.destination i) d).mp h1 with h2 | h2
              · exact inv4 d h2
              · exact Or.inr ⟨i, hi, hm, h2⟩
            · have k1 : ∀ e ∈ ((fs.mkdirall (c.destination i)).removeFile qv).files,
                  e.1 ≠ [] := by
                intro e he
                exact inv5 e (List.mem_of_mem_filter he)
              have k2 := keys_setFile _ (c.destination i) tq hdne k1
              have k3 : ∀ e ∈ (((((fs.mkdirall (c.destination i)).removeFile qv).setFile
                  (c.destination i) tq).pruneDirs qv.dropLast c.directory)).files,
                  e.1 ≠ [] := by
                intro e he
                rw [files_pruneDirs] at he
                exact k2 e he
              exact keys_setFile _ _ _ hdne k3
          · intro x hcond
            rcases hcond with hx | ⟨hartx, hrec, hdst⟩
            · exact hch x (outside_ne_and_dropLast_ne H.hdirne hdpre hdlen hx).1
                (outside_ne_and_dropLast_ne H.hdirne hin1 hin2 hx).1
            · exact hch x (hdst hm) (hrec qv hgp)
          · intro _
            refine Or.inr ⟨rfl, get_path_set_path c i _, ⟨_, rfl⟩, now, ms, hchd, ?_, hmsle⟩
            rw [hch i.path hsrcd hsrcq]
            exact hmsfs
          · intro hmf
            rw [hm] at hmf
            cases hmf
          · intro i2 hi2 hm2 hnp2 q2 hq2 hq2ne
            have hne2 : i2.id ≠ i.id := by
              intro hc
              exact hnp2 (List.mem_append_right _ (by simp [hc]))
            obtain ⟨hf2, hd2⟩ := hrecI i2 hi2 hm2
              (fun hc => hnp2 (List.mem_append_left _ hc)) q2 hq2 hq2ne
            have hq2qv : q2 ≠ qv :=
              recNeRec_elim (H.hrecinj i2 hi2 i hi hne2) hq2 hq2ne hgp
            have hAf : (((fs.mkdirall (c.destination i)).removeFile qv).setFile
                (c.destination i) tq).isfile q2 = true := by
              rw [isfile_setFile, isfile_removeFile, isfile_mkdirall]
              simp [hf2, hq2qv]
            have hAd : (((fs.mkdirall (c.destination i)).removeFile qv).setFile
                (c.destination i) tq).isdir q2.dropLast = true := by
              rw [isdir_setFile, isdir_removeFile]
              exact isdir_mkdirall_of fs _ _ hd2
            have hPd := isdir_pruneDirs_parent
              (((fs.mkdirall (c.destination i)).removeFile qv).setFile (c.destination i) tq)
              qv.dropLast c.directory q2 hAf hq2ne hAd
            refine ⟨?_, ?_⟩
            · rw [isfile_setFile, isfile_pruneDirs]
              simp [hAf]
            · rw [isdir_setFile]
              exact hPd
      · -- recorded path empty or file missing: ADD
        simp only [Bool.not_eq_true] at hlive
        have hclass : classifyOne c (matchedIds c lib) fs i = .ok (some .ADD) := by
          simp [classifyOne, hm, External.matched_item_action, hgp, Value.decodeUtf8,
            hlive, Except.map]
        refine ⟨i, fs, [], [i], ?_,
          StInv_mono _ _ _ _ _ _ _ ⟨inv1, inv2, inv3, inv4, inv5⟩,
          fun x _ => rfl, rfl, fun _ => Or.inl ⟨rfl, rfl⟩, ?_,
          RecInv_mono _ _ _ _ _ _ hrecI⟩
        · simp [External.stepItem, hclass]
        · intro hmf
          rw [hm] at hmf
          cases hmf
  · -- unmatched item
    simp only [Bool.not_eq_true] at hm
    cases hgp : c.get_path i with
    | none =>
      have hclass : classifyOne c (matchedIds c lib) fs i = .ok none := by
        simp [classifyOne, hm, hgp]
      refine ⟨i, fs, [], [], ?_,
        StInv_mono _ _ _ _ _ _ _ ⟨inv1, inv2, inv3, inv4, inv5⟩,
        fun x _ => rfl, rfl, ?_, ?_, RecInv_mono _ _ _ _ _ _ hrecI⟩
      · simp [External.stepItem, hclass]
      · intro hmf
        rw [hm] at hmf
        cases hmf
      · intro _
        exact ⟨rfl, ⟨i.attrs, rfl⟩, Or.inl hgp⟩
    | some v =>
      cases htr : v.truthy with
      | false =>
        have hclass : classifyOne c (matchedIds c lib) fs i = .ok none := by
          simp [classifyOne, hm, hgp, htr]
        refine ⟨i, fs, [], [], ?_,
          StInv_mono _ _ _ _ _ _ _ ⟨inv1, inv2, inv3, inv4, inv5⟩,
          fun x _ => rfl, rfl, ?_, ?_, RecInv_mono _ _ _ _ _ _ hrecI⟩
        · simp [External.stepItem, hclass]
        · intro hmf
          rw [hm] at hmf
          cases hmf
        · intro _
          exact ⟨rfl, ⟨i.attrs, rfl⟩, Or.inr ⟨v, hgp, htr⟩⟩
      | true =>
        obtain ⟨qv, rfl⟩ : ∃ qv, v = Value.vbytes qv := by
          have := valueWt_elim (H.hwt i hi) hgp
          cases v with
          | vbytes q => exact ⟨q, rfl⟩
          | vstr q => simp [Value.decodeUtf8] at this
          | vint n => simp [Value.decodeUtf8] at this
        have hqvne : qv ≠ [] := by
          intro hc
          rw [hc] at htr
          simp [Value.truthy] at htr
        obtain ⟨hin1, hin2⟩ := recIn_elim (H.hrecin i hi) hgp hqvne
        have hdirsne : ∀ d' ∈ fs.dirs, d' ≠ [] := by
          intro d' hd'
          rcases inv4 d' hd' with h1 | ⟨j, hj, hjm, h2⟩
          · exact H.hdirsne0 d' h1
          · exact (properAncestors_names h2).1
        have hsubart : ∀ d' ∈ fs.dirs, d'.dropLast = qv.dropLast →
            ∀ x, d'.getLast? = some x → c.other_ext.contains (extOf x) = false := by
          intro d' hd' _ x hx
          rcases inv4 d' hd' with h1 | ⟨j, hj, hjm, h2⟩
          · exact artFreeLast_elim (H.hdirnames d' h1) x hx
          · obtain ⟨_, x', hx', hxmem⟩ := properAncestors_names h2
            rw [hx] at hx'
            have hxx : x = x' := by injection hx'
            rw [hxx]
            exact H.hdirnames2 j hj hjm x' hxmem
        obtain ⟨hfileqv, hdirqv⟩ := hrecI i hi hm hnotproc qv hgp hqvne
        obtain ⟨fs', effs', hri, hpres, hsub, hdirs, hroot, hkeys', hparent⟩ :=
          remove_item_run c fs i qv hgp hdirqv inv5 hdirsne hsubart
        have hclass : classifyOne c (matchedIds c lib) fs i = .ok (some .REMOVE) := by
          simp [classifyOne, hm, hgp, htr]
        have hstep : c.stepItem (matchedIds c lib) now fs pend i
            = .ok ({ i with attrs := i.attrs.filter (fun e => e.1 ≠ c.path_key) },
                fs', effs', pend) := by
          simp [External.stepItem, hclass, hri]
        refine ⟨{ i with attrs := i.attrs.filter (fun e => e.1 ≠ c.path_key) },
          fs', effs', [], by rw [hstep]; simp, ?_, ?_, rfl, ?_, ?_, ?_⟩
        · refine ⟨?_, ?_, hroot inv3, fun d hd => inv4 d (hdirs d hd), hkeys'⟩
          · intro x hx
            obtain ⟨hne1, hne2⟩ := outside_ne_and_dropLast_ne H.hdirne hin1 hin2 hx
            rw [hpres x hne1 (Or.inr hne2)]
            exact inv1 x hx
          · intro x hxf
            rcases inv2 x (hsub x hxf) with h0 | ⟨j, hj, hjm, hjp, hje⟩
            · exact Or.inl h0
            · exact Or.inr ⟨j, hj, hjm, List.mem_append_left _ hjp, hje⟩
        · intro x hcond
          rcases hcond with hx | ⟨hartx, hrec, _⟩
          · obtain ⟨hne1, hne2⟩ := outside_ne_and_dropLast_ne H.hdirne hin1 hin2 hx
            exact hpres x hne1 (Or.inr hne2)
          · exact hpres x (hrec qv hgp) (Or.inl hartx)
        · intro hmf
          rw [hm] at hmf
          cases hmf
        · intro _
          exact ⟨rfl, ⟨_, rfl⟩, Or.inl (get_path_clear c i)⟩
        · intro i2 hi2 hm2 hnp2 q2 hq2 hq2ne
          have hne2 : i2.id ≠ i.id := by
            intro hc
            exact hnp2 (List.mem_append_right _ (by simp [hc]))
          obtain ⟨hf2, hd2⟩ := hrecI i2 hi2 hm2
            (fun hc => hnp2 (List.mem_append_left _ hc)) q2 hq2 hq2ne
          have hq2qv : q2 ≠ qv :=
            recNeRec_elim (H.hrecinj i2 hi2 i hi hne2) hq2 hq2ne hgp
          have hart2 : artFreeLast c q2 = true :=
            (recRemovable_elim (H.hremv i2 hi2 hm2) hq2 hq2ne).2.2
          have hpq2 : fs'.getmtime q2 = fs.getmtime q2 :=
            hpres q2 hq2qv (Or.inl (artFreeLast_elim hart2))
          have hf2' : fs'.isfile q2 = true := by
            rw [isfile_eq_isSome, hpq2, ← isfile_eq_isSome]
            exact hf2
          exact ⟨hf2', hparent q2 hq2ne hf2' hd2⟩

/-- The per-item outcome of the update loop, stated against the loop's
final filesystem: ids are stable; a matched item is either pending (and
unchanged) or recorded at its destination with its file in place and
fresh; an unmatched item ends with an absent or falsy recorded value. -/
def PostRel (c : External) (mids : List Nat) (fs' : FS) (pendAll : List Item)
    (i i' : Item) : Prop :=
  i'.id = i.id
  ∧ (isMatched c mids i = true →
      (i' = i ∧ i ∈ pendAll)
      ∨ (c.get_path i' = some (Value.vbytes (c.destination i))
          ∧ (∃ a, i' = { i with attrs := a }) ∧ DestFact c fs' i))
  ∧ (isMatched c mids i = false → UnmItemOut c i i')

/-- Paths no remaining loop pass can touch: outside the collection
directory, or art-free and aliasing no remaining item's recorded path or
destination. -/
def BigPres (c : External) (mids : List Nat) (rest : List Item) (x : Path) : Prop :=
  isPre c.directory x = false
  ∨ ((∀ xl, x.getLast? = some xl → c.other_ext.contains (extOf xl) = false)
      ∧ ∀ j ∈ rest, (∀ q, c.get_path j = some (Value.vbytes q) → x ≠ q)
          ∧ (isMatched c mids j = true → x ≠ c.destination j))

theorem bigPres_head (c : External) (mids : List Nat) (i : Item) (rest : List Item)
    (x : Path) (h : BigPres c mids (i :: rest) x) : PresCondStep c i mids x := by
  rcases h with h | ⟨h1, h2⟩
  · exact Or.inl h
  · exact Or.inr ⟨h1, (h2 i (List.mem_cons_self i rest)).1, (h2 i (List.mem_cons_self i rest)).2⟩

theorem bigPres_tail (c : External) (mids : List Nat) (i : Item) (rest : List Item)
    (x : Path) (h : BigPres c mids (i :: rest) x) : BigPres c mids rest x := by
  rcases h with h | ⟨h1, h2⟩
  · exact Or.inl h
  · exact Or.inr ⟨h1, fun j hj => h2 j (List.mem_cons_of_mem i hj)⟩

/-- The whole item loop of `External.update`, under the C3 hypotheses:
it succeeds, each item ends in its characterized state, the pending list
collects exactly the matched ADD items, and protected paths keep their
mtimes. -/
theorem runItems_run (c : External) (lib : Lib) (fs0 : FS) (now : Nat)
    (H : Hyps c lib fs0 now) :
    ∀ (rest procd : List Item) (fs : FS) (pend : List Item) (effs : List Eff),
      lib.items = procd ++ rest →
      (∀ x ∈ pend, x ∈ lib.items ∧ isMatched c (matchedIds c lib) x = true) →
      (pend.map Item.id).Nodup →
      (∀ x ∈ pend, x.id ∈ procd.map Item.id) →
      StInv c lib fs0 (matchedIds c lib) fs (procd.map Item.id) →
      RecInv c lib (matchedIds c lib) fs (procd.map Item.id) →
      ∃ items' fs' pendAdd effs',
        c.runItems (matchedIds c lib) now rest fs pend effs
          = (items', fs', pend ++ pendAdd, effs', none)
        ∧ List.Forall₂ (PostRel c (matchedIds c lib) fs' (pend ++ pendAdd)) rest items'
        ∧ (∀ x ∈ pendAdd, x ∈ rest ∧ isMatched c (matchedIds c lib) x = true)
        ∧ ((pend ++ pendAdd).map Item.id).Nodup
        ∧ (∀ x ∈ pendAdd, x.id ∈ rest.map Item.id)
        ∧ StInv c lib fs0 (matchedIds c lib) fs' ((procd ++ rest).map Item.id)
        ∧ (∀ x, BigPres c (matchedIds c lib) rest x → fs'.getmtime x = fs.getmtime x) := by
  intro rest
  induction rest with
  | nil =>
    intro procd fs pend effs hsplit hpend hpnodup hpsub hinv _
    refine ⟨[], fs, [], effs, ?_, List.Forall₂.nil, ?_, ?_, ?_, ?_, fun x _ => rfl⟩
    · simp [External.runItems]
    · intro x hx; cases hx
    · simpa using hpnodup
    · intro x hx; cases hx
    · simpa using hinv
  | cons i rest' ih =>
    intro procd fs pend effs hsplit hpend hpnodup hpsub hinv hrecI
    have hi : i ∈ lib.items := by
      rw [hsplit]
      exact List.mem_append_right _ (List.mem_cons_self i rest')
    have hnodids : (lib.items.map Item.id).Nodup := H.hids
    have hdisj : i.id ∉ procd.map Item.id := by
      rw [hsplit] at hnodids
      simp only [List.map_append, List.map_cons] at hnodids
      have hd := List.disjoint_of_nodup_append hnodids
      intro hc
      exact hd hc (List.mem_cons_self _ _)
    have hidrest : i.id ∉ rest'.map Item.id := by
      rw [hsplit] at hnodids
      simp only [List.map_append, List.map_cons] at hnodids
      have h2 := (List.nodup_append.mp hnodids).2.1
      exact (List.nodup_cons.mp h2).1
    obtain ⟨i', fs1, effs1, pendAddStep, hstep, hinv1, hpres1, hid1, hmatched1, hunm1, hrec1⟩ :=
      stepItem_run c lib fs0 now H i hi fs pend (procd.map Item.id) hinv hdisj hrecI
    have hinv1' : StInv c lib fs0 (matchedIds c lib) fs1 ((procd ++ [i]).map Item.id) := by
      simpa using hinv1
    have hrec1' : RecInv c lib (matchedIds c lib) fs1 ((procd ++ [i]).map Item.id) := by
      intro i2 hi2 hm2 hnp2 q2 hq2 hq2ne
      apply hrec1 i2 hi2 hm2 ?_ q2 hq2 hq2ne
      intro hc
      apply hnp2
      simp only [List.map_append, List.map_cons]
      simpa using hc
    have hsplit' : lib.items = (procd ++ [i]) ++ rest' := by
      rw [hsplit]
      simp
    have hpendStep : pendAddStep = [] ∨ pendAddStep = [i] := by
      by_cases hm : isMatched c (matchedIds c lib) i = true
      · rcases hmatched1 hm with ⟨h1, _⟩ | ⟨h1, _⟩
        · exact Or.inr h1
        · exact Or.inl h1
      · simp only [Bool.not_eq_true] at hm
        exact Or.inl (hunm1 hm).1
    have hpend' : ∀ x ∈ pend ++ pendAddStep, x ∈ lib.items
        ∧ isMatched c (matchedIds c lib) x = true := by
      intro x hx
      rcases List.mem_append.mp hx with h1 | h1
      · exact hpend x h1
      · rcases hpendStep with h2 | h2
        · rw [h2] at h1; cases h1
        · rw [h2] at h1
          have hxi : x = i := by simpa using h1
          subst hxi
          refine ⟨hi, ?_⟩
          by_cases hm : isMatched c (matchedIds c lib) x = true
          · exact hm
          · simp only [Bool.not_eq_true] at hm
            have := (hunm1 hm).1
            rw [h2] at this
            cases this
    have hpnodup' : ((pend ++ pendAddStep).map Item.id).Nodup := by
      rcases hpendStep with h2 | h2
      · subst h2; simpa using hpnodup
      · subst h2
        rw [List.map_append]
        apply List.Nodup.append hpnodup (by simp)
        intro a ha hb
        have hbi : a = i.id := by simpa using hb
        subst hbi
        obtain ⟨x, hx1, hx2⟩ := List.mem_map.mp ha
        have := hpsub x hx1
        rw [hx2] at this
        exact hdisj this
    have hpsub' : ∀ x ∈ pend ++ pendAddStep, x.id ∈ (procd ++ [i]).map Item.id := by
      intro x hx
      rcases List.mem_append.mp hx with h1 | h1
      · rw [List.map_append]
        exact List.mem_append_left _ (hpsub x h1)
      · rcases hpendStep with h2 | h2
        · rw [h2] at h1; cases h1
        · rw [h2] at h1
          have hxi : x = i := by simpa using h1
          subst hxi
          rw [List.map_append]
          exact List.mem_append_right _ (by simp)
    obtain ⟨items', fs', pendAdd', effs', hrun, hfa, hpadd, hnodup', hpaddid, hinvF, hpresF⟩ :=
      ih (procd ++ [i]) fs1 (pend ++ pendAddStep) (effs ++ effs1) hsplit' hpend' hpnodup'
        hpsub' hinv1' hrec1'
    have hassoc : (pend ++ pendAddStep) ++ pendAdd' = pend ++ (pendAddStep ++ pendAdd') := by
      rw [List.append_assoc]
    refine ⟨i' :: items', fs', pendAddStep ++ pendAdd', effs', ?_, ?_, ?_, ?_, ?_, ?_, ?_⟩
    · unfold External.runItems
      rw [hstep]
      simp only []
      rw [hrun]
      rw [hassoc]
    · refine List.Forall₂.cons ?_ ?_
      · -- PostRel for the head item, against the final state
        refine ⟨hid1, ?_, ?_⟩
        · intro hm
          rcases hmatched1 hm with ⟨h1, h2⟩ | ⟨h1, h2, h3, t, ms, hdt, hsm, hle⟩
          · left
            refine ⟨h2, ?_⟩
            rw [← hassoc]
            apply List.mem_append_left
            rw [h1]
            exact List.mem_append_right _ (by simp)
          · right
            refine ⟨h2, h3, t, ms, ?_, ?_, hle⟩
            · rw [← hdt]
              apply hpresF
              refine Or.inr ⟨artFreeLast_elim (H.hart i hi hm), ?_⟩
              intro j hj
              have hjlib : j ∈ lib.items := by
                rw [hsplit]
                exact List.mem_append_right _ (List.mem_cons_of_mem i hj)
              have hjid : j.id ≠ i.id := by
                intro hc
                apply hidrest
                rw [← hc]
                exact List.mem_map_of_mem Item.id hj
              constructor
              · intro q hq hc
                have := recNeDest_elim (H.hrecdest j hjlib i hi hjid hm) hq
                exact this hc.symm
              · intro hjm hc
                have := H.hdestinj i hi j hjlib hm hjm hc
                rw [this] at hjid
                exact hjid rfl
            · rw [← hsm]
              apply hpresF
              exact Or.inl (H.hsrcout i hi)
        · intro hm
          exact (hunm1 hm).2
      · -- PostRel for the tail, transported along the pending list equality
        have : (pend ++ pendAddStep) ++ pendAdd' = pend ++ (pendAddStep ++ pendAdd') :=
          hassoc
        rw [← this]
        exact hfa
    · intro x hx
      rcases List.mem_append.mp hx with h1 | h1
      · rcases hpendStep with h2 | h2
        · rw [h2] at h1; cases h1
        · rw [h2] at h1
          have hxi : x = i := by simpa using h1
          subst hxi
          exact ⟨List.mem_cons_self x rest', (hpend' x (List.mem_append_right _ (h2 ▸ h1))).2⟩
      · obtain ⟨h2, h3⟩ := hpadd x h1
        exact ⟨List.mem_cons_of_mem i h2, h3⟩
    · rw [← hassoc]
      exact hnodup'
    · intro x hx
      rcases List.mem_append.mp hx with h1 | h1
      · rcases hpendStep with h2 | h2
        · rw [h2] at h1; cases h1
        · rw [h2] at h1
          have hxi : x = i := by simpa using h1
          subst hxi
          simp
      · have := hpaddid x h1
        simp only [List.map_cons]
        exact List.mem_cons_of_mem _ this
    · have : (procd ++ [i]) ++ rest' = procd ++ i :: rest' := by simp
      rw [← this]
      exact hinvF
    · intro x hx
      have h1 := hpres1 x (bigPres_head c (matchedIds c lib) i rest' x hx)
      have h2 := hpresF x (bigPres_tail c (matchedIds c lib) i rest' x hx)
      rw [h2, h1]

/-- The per-item effect of the harvest fold. -/
def persistOne (c : External) (order : List Item) (it : Item) : Item :=
  order.foldl
    (fun acc k => if acc.id = k.id then c.set_path acc (c.destination k) else acc) it

theorem persistAdds_map (c : External) :
    ∀ (order : List Item) (items : List Item),
      persistAdds c order items = items.map (persistOne c order) := by
  intro order
  induction order with
  | nil =>
    intro items
    unfold persistAdds persistOne
    simp
  | cons k ks ih =>
    intro items
    unfold persistAdds persistOne at *
    simp only [List.foldl_cons]
    rw [ih]
    rw [List.map_map]
    rfl

theorem persistOne_id (c : External) :
    ∀ (order : List Item) (it : Item), (persistOne c order it).id = it.id := by
  intro order
  induction order with
  | nil => intro it; rfl
  | cons k ks ih =>
    intro it
    unfold persistOne at *
    simp only [List.foldl_cons]
    by_cases h : it.id = k.id
    · rw [if_pos h, ih]
      rfl
    · rw [if_neg h, ih]

theorem persistOne_not_mem (c : External) :
    ∀ (order : List Item) (it : Item), it.id ∉ order.map Item.id →
      persistOne c order it = it := by
  intro order
  induction order with
  | nil => intro it _; rfl
  | cons k ks ih =>
    intro it hmem
    unfold persistOne at *
    simp only [List.foldl_cons]
    have h1 : it.id ≠ k.id := by
      intro hc
      exact hmem (by simp [hc])
    rw [if_neg h1]
    exact ih it (fun hc => hmem (List.mem_cons_of_mem _ hc))

theorem persistOne_mem (c : External) (o1 : List Item) (k : Item) (o2 : List Item)
    (it : Item) (hids : ((o1 ++ k :: o2).map Item.id).Nodup) (hk : it.id = k.id) :
    persistOne c (o1 ++ k :: o2) it = c.set_path it (c.destination k) := by
  have hno1 : it.id ∉ o1.map Item.id := by
    rw [List.map_append] at hids
    have hd := List.disjoint_of_nodup_append hids
    intro hc
    exact hd hc (by rw [hk]; simp)
  have hno2 : it.id ∉ o2.map Item.id := by
    rw [List.map_append] at hids
    have h2 := (List.nodup_append.mp hids).2.1
    simp only [List.map_cons, List.nodup_cons] at h2
    rw [hk]
    exact h2.1
  unfold persistOne
  rw [List.foldl_append]
  have h1 : o1.foldl
      (fun acc k' => if acc.id = k'.id then c.set_path acc (c.destination k') else acc) it
      = it := persistOne_not_mem c o1 it hno1
  rw [h1]
  simp only [List.foldl_cons, if_pos hk]
  have h2 : (c.set_path it (c.destination k)).id = it.id := rfl
  exact persistOne_not_mem c o2 _ (by rw [h2, hk] at *; exact hno2)

/-- The harvest phase of `External.update`, under the C3 hypotheses: every
job succeeds and is persisted, destination files end at the current
timestamp, and all other paths are untouched. -/
theorem runJobs_run (c : External) (now : Nat) :
    ∀ (order : List Item) (items : List Item) (fs : FS) (effs : List Eff),
      (∀ k ∈ order, fs.isfile k.path = true) →
      (∀ k ∈ order, ∀ k' ∈ order, k.path ≠ c.destination k') →
      (∀ k ∈ order, ∀ k' ∈ order, c.destination k = c.destination k' → k.id = k'.id) →
      (order.map Item.id).Nodup →
      ∃ fs' effs',
        c.runJobs now order items fs effs = (persistAdds c order items, fs', effs', none)
        ∧ (∀ x, (∀ k ∈ order, x ≠ c.destination k) → fs'.getmtime x = fs.getmtime x)
        ∧ (∀ k ∈ order, fs'.getmtime (c.destination k) = some now)
        ∧ (∀ d, fs.isdir d = true → fs'.isdir d = true) := by
  intro order
  induction order with
  | nil =>
    intro items fs effs _ _ _ _
    refine ⟨fs, effs, ?_, fun x _ => rfl, ?_, fun d hd => hd⟩
    · unfold External.runJobs persistAdds
      simp
    · intro k hk; cases hk
  | cons k ks ih =>
    intro items fs effs hsrc hsnd hdinj hnod
    have hk0 : fs.isfile k.path = true := hsrc k (List.mem_cons_self k ks)
    have hcopy : (fs.mkdirall (c.destination k)).copyFile k.path (c.destination k) now
        = .ok ((fs.mkdirall (c.destination k)).setFile (c.destination k) now) := by
      apply copyFile_ok
      rw [isfile_mkdirall]
      exact hk0
    have hjob : c.convertJob now fs k
        = .ok ((fs.mkdirall (c.destination k)).setFile (c.destination k) now,
            c.destination k, [.mkdirs (c.destination k), .copied k.path (c.destination k)]) := by
      simp [External.convertJob, hcopy]
    have hsrc' : ∀ k' ∈ ks, ((fs.mkdirall (c.destination k)).setFile
        (c.destination k) now).isfile k'.path = true := by
      intro k' hk'
      rw [isfile_setFile, isfile_mkdirall]
      simp [hsrc k' (List.mem_cons_of_mem k hk')]
    obtain ⟨fs', effs', hrec, hpres, hdst, hdir⟩ :=
      ih (items.map fun it => if it.id = k.id then c.set_path it (c.destination k) else it)
        ((fs.mkdirall (c.destination k)).setFile (c.destination k) now)
        (effs ++ [.mkdirs (c.destination k), .copied k.path (c.destination k)])
        hsrc'
        (fun a ha b hb => hsnd a (List.mem_cons_of_mem k ha) b (List.mem_cons_of_mem k hb))
        (fun a ha b hb => hdinj a (List.mem_cons_of_mem k ha) b (List.mem_cons_of_mem k hb))
        (by simp only [List.map_cons, List.nodup_cons] at hnod; exact hnod.2)
    have hkdst : ∀ k' ∈ ks, c.destination k ≠ c.destination k' := by
      intro k' hk' hc
      have h1 := hdinj k (List.mem_cons_self k ks) k' (List.mem_cons_of_mem k hk') hc
      simp only [List.map_cons, List.nodup_cons] at hnod
      exact hnod.1 (h1 ▸ List.mem_map_of_mem Item.id hk')
    refine ⟨fs', effs', ?_, ?_, ?_, ?_⟩
    · unfold External.runJobs
      rw [hjob]
      simp only []
      rw [hrec]
      unfold persistAdds
      rw [List.foldl_cons]
    · intro x hx
      rw [hpres x (fun k' hk' => hx k' (List.mem_cons_of_mem k hk'))]
      rw [getmtime_setFile, if_neg (hx k (List.mem_cons_self k ks)), getmtime_mkdirall]
    · intro k' hk'
      rcases List.mem_cons.mp hk' with h1 | h1
      · subst h1
        rw [hpres (c.destination k') hkdst]
        rw [getmtime_setFile, if_pos rfl]
      · exact hdst k' h1
    · intro d hd
      apply hdir
      rw [isdir_setFile]
      exact isdir_mkdirall_of fs _ _ hd

/-- A second pass that classifies every item NOOP (or nothing) leaves the
loop state untouched. -/
theorem runItems_id (c : External) (mids : List Nat) (now : Nat) (fs : FS) :
    ∀ (l : List Item) (pend : List Item) (effs : List Eff),
      (∀ i ∈ l, classifyOne c mids fs i = .ok none
        ∨ classifyOne c mids fs i = .ok (some .NOOP)) →
      c.runItems mids now l fs pend effs = (l, fs, pend, effs, none) := by
  intro l
  induction l with
  | nil =>
    intro pend effs _
    simp [External.runItems]
  | cons i rest ih =>
    intro pend effs h
    have hstep : c.stepItem mids now fs pend i = .ok (i, fs, [], pend) := by
      rcases h i (List.mem_cons_self i rest) with h1 | h1
      · simp [External.stepItem, h1]
      · simp [External.stepItem, h1]
    unfold External.runItems
    rw [hstep]
    simp only []
    rw [List.append_nil]
    rw [ih pend effs (fun j hj => h j (List.mem_cons_of_mem i hj))]

theorem persistOne_shape (c : External) :
    ∀ (order : List Item) (it : Item), ∃ a, persistOne c order it = { it with attrs := a } := by
  intro order
  induction order with
  | nil => intro it; exact ⟨it.attrs, rfl⟩
  | cons k ks ih =>
    intro it
    unfold persistOne at *
    simp only [List.foldl_cons]
    by_cases h : it.id = k.id
    · rw [if_pos h]
      obtain ⟨a, ha⟩ := ih (c.set_path it (c.destination k))
      exact ⟨a, ha⟩
    · rw [if_neg h]
      exact ih it

theorem nodup_map_inj {l : List Item} (h : (l.map Item.id).Nodup) :
    ∀ a ∈ l, ∀ b ∈ l, a.id = b.id → a = b := by
  induction l with
  | nil => intro a ha; cases ha
  | cons x xs ih =>
    intro a ha b hb hab
    simp only [List.map_cons, List.nodup_cons] at h
    rcases List.mem_cons.mp ha with h1 | h1 <;> rcases List.mem_cons.mp hb with h2 | h2
    · rw [h1, h2]
    · exfalso
      apply h.1
      subst h1
      rw [hab]
      exact List.mem_map_of_mem Item.id h2
    · exfalso
      apply h.1
      subst h2
      rw [← hab]
      exact List.mem_map_of_mem Item.id h1
    · exact ih h.2 a h1 b h2 hab

/-- C3.  Under the resolved system invariants (`Hyps`), one run of
`External.update` succeeds, after it every matched item classifies NOOP,
and a second run — with any creation flag, prompt answer, timestamp and
job completion order — performs no filesystem effect and no state change:
it returns the same items, the same filesystem and an empty effect
trace. -/
theorem C3_update_idempotent (c : External) (lib : Lib) (fs0 : FS) (now : Nat)
    (create : Option Bool) (promptYes : Bool) (reorder : List Item → List Item)
    (hre : ∀ l : List Item, (reorder l).Perm l)
    (H : Hyps c lib fs0 now) :
    ∃ items1 fs1 effs1,
      External.update c create promptYes now reorder lib fs0 = ⟨items1, fs1, effs1, none⟩
      ∧ (∀ i' ∈ items1,
          isMatched c (matchedIds c ⟨items1, lib.albums⟩) i' = true →
          classifyOne c (matchedIds c ⟨items1, lib.albums⟩) fs1 i' = .ok (some .NOOP))
      ∧ (∀ (create' : Option Bool) (promptYes' : Bool) (now' : Nat)
          (reorder' : List Item → List Item), (∀ l, (reorder' l).Perm l) →
          External.update c create' promptYes' now' reorder' ⟨items1, lib.albums⟩ fs1
            = ⟨items1, fs1, [], none⟩) := by
  have hinv0 : StInv c lib fs0 (matchedIds c lib) fs0 (([] : List Item).map Item.id) :=
    ⟨fun x _ => rfl, fun x hx => Or.inl hx, H.hdir, fun d hd => Or.inl hd, H.hkeys0⟩
  have hrec0 : RecInv c lib (matchedIds c lib) fs0 (([] : List Item).map Item.id) := by
    intro i hi hm _ q hq hqne
    obtain ⟨h1, h2, _⟩ := recRemovable_elim (H.hremv i hi hm) hq hqne
    exact ⟨h1, h2⟩
  obtain ⟨items', fs1', pendAdd, effs', hrun, hfa, hpadd, hnodup, hpaddid, hinvF, hpresF⟩ :=
    runItems_run c lib fs0 now H lib.items [] fs0 [] [] (by simp)
      (by intro x hx; cases hx) (by simp) (by intro x hx; cases hx) hinv0 hrec0
  simp only [List.nil_append] at hrun hfa hnodup hinvF
  obtain ⟨invF1, invF2, invF3, invF4, invF5⟩ := hinvF
  have horder_sub : ∀ k ∈ reorder pendAdd, k ∈ pendAdd :=
    fun k hk => (hre pendAdd).subset hk
  have horder_props : ∀ k ∈ reorder pendAdd,
      k ∈ lib.items ∧ isMatched c (matchedIds c lib) k = true :=
    fun k hk => hpadd k (horder_sub k hk)
  have hnodO : ((reorder pendAdd).map Item.id).Nodup :=
    (((hre pendAdd).map Item.id).nodup_iff).mpr hnodup
  obtain ⟨fs1, effs1, hjobs, hjpres, hjdst, hjdir⟩ :=
    runJobs_run c now (reorder pendAdd) items' fs1' effs'
      (by
        intro k hk
        obtain ⟨hkl, hkm⟩ := horder_props k hk
        rw [isfile_eq_isSome, invF1 k.path (H.hsrcout k hkl)]
        obtain ⟨ms, hms⟩ := (isfile_iff_getmtime fs0 k.path).mp (H.hsrc k hkl hkm)
        rw [hms]
        rfl)
      (by
        intro k hk k' hk'
        obtain ⟨hkl, _⟩ := horder_props k hk
        obtain ⟨hkl', hkm'⟩ := horder_props k' hk'
        exact (outside_ne_and_dropLast_ne H.hdirne (dest_pre c k')
          (dest_len c k' (H.hfmt k' hkl' hkm')) (H.hsrcout k hkl)).1)
      (by
        intro k hk k' hk' hc
        obtain ⟨hkl, hkm⟩ := horder_props k hk
        obtain ⟨hkl', hkm'⟩ := horder_props k' hk'
        exact H.hdestinj k hkl k' hkl' hkm hkm' hc)
      hnodO
  have hupdate1 : External.update c create promptYes now reorder lib fs0
      = ⟨persistAdds c (reorder pendAdd) items', fs1, effs1, none⟩ := by
    unfold External.update
    have hcond : (!fs0.isdir c.directory && !c.ask_create create promptYes) = false := by
      rw [H.hdir]
      rfl
    rw [hcond]
    simp only [Bool.false_eq_true, if_false]
    rw [hrun]
    simp only []
    rw [hjobs]
  have hsrcfact : ∀ k, k ∈ lib.items → isMatched c (matchedIds c lib) k = true →
      ∃ ms, fs1.getmtime k.path = some ms ∧ ms ≤ now := by
    intro k hk hkm
    have h1 : fs1.getmtime k.path = fs1'.getmtime k.path := by
      apply hjpres
      intro k2 hk2
      obtain ⟨hk2l, hk2m⟩ := horder_props k2 hk2
      exact (outside_ne_and_dropLast_ne H.hdirne (dest_pre c k2)
        (dest_len c k2 (H.hfmt k2 hk2l hk2m)) (H.hsrcout k hk)).1
    have h2 : fs1'.getmtime k.path = fs0.getmtime k.path := invF1 k.path (H.hsrcout k hk)
    obtain ⟨ms, hms⟩ := (isfile_iff_getmtime fs0 k.path).mp (H.hsrc k hk hkm)
    obtain ⟨e, he, _, he2⟩ := getmtime_mem fs0 k.path ms hms
    refine ⟨ms, ?_, ?_⟩
    · rw [h1, h2, hms]
    · rw [← he2]
      exact H.hnow e he
  have hitems1eq : persistAdds c (reorder pendAdd) items'
      = items'.map (persistOne c (reorder pendAdd)) := persistAdds_map c _ items'
  have hitemfacts : ∀ i' ∈ persistAdds c (reorder pendAdd) items', ∃ i ∈ lib.items,
      (∃ a, i' = { i with attrs := a })
      ∧ (isMatched c (matchedIds c lib) i = true →
          c.get_path i' = some (Value.vbytes (c.destination i)) ∧ DestFact c fs1 i)
      ∧ (isMatched c (matchedIds c lib) i = false →
          (c.get_path i' = none ∨ ∃ v, c.get_path i' = some v ∧ v.truthy = false)) := by
    rw [hitems1eq]
    intro i' hi'
    obtain ⟨y, hy, rfl⟩ := List.mem_map.mp hi'
    obtain ⟨i, hiL, hidYI, hmatchrel, hunmrel⟩ := forall₂_mem_right hfa y hy
    have hyshape : ∃ a0, y = { i with attrs := a0 } := by
      by_cases hm : isMatched c (matchedIds c lib) i = true
      · rcases hmatchrel hm with ⟨h1, _⟩ | ⟨_, h2, _⟩
        · exact ⟨i.attrs, by rw [h1]⟩
        · exact h2
      · simp only [Bool.not_eq_true] at hm
        exact (hunmrel hm).1
    refine ⟨i, hiL, ?_, ?_, ?_⟩
    · obtain ⟨a0, hy0⟩ := hyshape
      obtain ⟨a1, hp1⟩ := persistOne_shape c (reorder pendAdd) y
      refine ⟨a1, ?_⟩
      rw [hp1, hy0]
    · intro hm
      rcases hmatchrel hm with ⟨hyi, hypend⟩ | ⟨hrec, _, hdf⟩
      · subst hyi
        have hiord : y ∈ reorder pendAdd := ((hre pendAdd).symm.subset) hypend
        obtain ⟨o1, o2, hsplit2⟩ := List.append_of_mem hiord
        have hnod2 : ((o1 ++ y :: o2).map Item.id).Nodup := by
          rw [← hsplit2]
          exact hnodO
        have hpers : persistOne c (reorder pendAdd) y = c.set_path y (c.destination y) := by
          rw [hsplit2]
          exact persistOne_mem c o1 y o2 y hnod2 rfl
        constructor
        · rw [hpers]
          exact get_path_set_path c y _
        · obtain ⟨ms, hms, hmsle⟩ := hsrcfact y hiL hm
          exact ⟨now, ms, hjdst y hiord, hms, hmsle⟩
      · by_cases hyio : y.id ∈ (reorder pendAdd).map Item.id
        · obtain ⟨k, hkord, hkid⟩ := List.mem_map.mp hyio
          have hkeq : k = i := by
            apply nodup_map_inj H.hids k (horder_props k hkord).1 i hiL
            rw [hkid, hidYI]
          obtain ⟨o1, o2, hsplit2⟩ := List.append_of_mem hkord
          have hnod2 : ((o1 ++ k :: o2).map Item.id).Nodup := by
            rw [← hsplit2]
            exact hnodO
          have hpers : persistOne c (reorder pendAdd) y = c.set_path y (c.destination k) := by
            rw [hsplit2]
            exact persistOne_mem c o1 k o2 y hnod2 hkid.symm
          constructor
          · rw [hpers, hkeq]
            exact get_path_set_path c y _
          · obtain ⟨ms, hms, hmsle⟩ := hsrcfact i hiL hm
            refine ⟨now, ms, ?_, hms, hmsle⟩
            rw [← hkeq]
            exact hjdst k hkord
        · have hpers : persistOne c (reorder pendAdd) y = y :=
            persistOne_not_mem c _ y hyio
          constructor
          · rw [hpers]
            exact hrec
          · obtain ⟨t, ms, h1, h2, h3⟩ := hdf
            have hdne2 : ∀ k ∈ reorder pendAdd, c.destination i ≠ c.destination k := by
              intro k hk hc
              obtain ⟨hkl, hkm⟩ := horder_props k hk
              have := H.hdestinj i hiL k hkl hm hkm hc
              apply hyio
              rw [hidYI, this]
              exact List.mem_map_of_mem Item.id hk
            refine ⟨t, ms, ?_, ?_, h3⟩
            · rw [← h1]
              exact hjpres _ hdne2
            · rw [← h2]
              apply hjpres
              intro k hk
              obtain ⟨hkl, hkm⟩ := horder_props k hk
              exact (outside_ne_and_dropLast_ne H.hdirne (dest_pre c k)
                (dest_len c k (H.hfmt k hkl hkm)) (H.hsrcout i hiL)).1
    · intro hm
      obtain ⟨_, hout⟩ := hunmrel hm
      have hyno : y.id ∉ (reorder pendAdd).map Item.id := by
        intro hc
        obtain ⟨k, hkord, hkid⟩ := List.mem_map.mp hc
        have hkeq : k = i := by
          apply nodup_map_inj H.hids k (horder_props k hkord).1 i hiL
          rw [hkid, hidYI]
        have := (horder_props k hkord).2
        rw [hkeq, hm] at this
        cases this
      rw [persistOne_not_mem c _ y hyno]
      exact hout
  have hdne' : ∀ i ∈ lib.items, isMatched c (matchedIds c lib) i = true →
      c.destination i ≠ [] := by
    intro i hiL hm hc
    have := dest_len c i (H.hfmt i hiL hm)
    rw [hc] at this
    simp at this
  have hclass : ∀ i' ∈ persistAdds c (reorder pendAdd) items',
      (isMatched c (matchedIds c lib) i' = true →
        classifyOne c (matchedIds c lib) fs1 i' = .ok (some .NOOP))
      ∧ (classifyOne c (matchedIds c lib) fs1 i' = .ok none
        ∨ classifyOne c (matchedIds c lib) fs1 i' = .ok (some .NOOP)) := by
    intro i' hi'
    obtain ⟨i, hiL, ⟨a, hshape⟩, hmat, hunm⟩ := hitemfacts i' hi'
    have hmeq : isMatched c (matchedIds c lib) i' = isMatched c (matchedIds c lib) i := by
      rw [hshape]
      exact isMatched_attrs c _ H.hq i a
    by_cases hm : isMatched c (matchedIds c lib) i = true
    · obtain ⟨hrec, t, ms, hdt, hsm, hle⟩ := hmat hm
      have hdesteq : c.destination i' = c.destination i := by
        rw [hshape]
        exact destination_attrs c H.hpf i a
      have hpatheq : i'.path = i.path := by rw [hshape]
      have hfile1 : fs1.isfile (c.destination i) = true := by
        rw [isfile_eq_isSome, hdt]
        rfl
      have hnoop : classifyOne c (matchedIds c lib) fs1 i' = .ok (some .NOOP) := by
        have hm' : isMatched c (matchedIds c lib) i' = true := by rw [hmeq]; exact hm
        have hlt : ¬ t < ms := by omega
        simp [classifyOne, hm', External.matched_item_action, hrec, Value.decodeUtf8,
          isEmpty_false_of_ne_nil (hdne' i hiL hm), hfile1, hdesteq, hpatheq, hdt, hsm,
          hlt, Except.map]
      exact ⟨fun _ => hnoop, Or.inr hnoop⟩
    · simp only [Bool.not_eq_true] at hm
      have hm' : isMatched c (matchedIds c lib) i' = false := by rw [hmeq]; exact hm
      have hnone : classifyOne c (matchedIds c lib) fs1 i' = .ok none := by
        rcases hunm hm with h1 | ⟨v, h1, h2⟩
        · simp [classifyOne, hm', h1]
        · simp [classifyOne, hm', h1, h2]
      refine ⟨?_, Or.inl hnone⟩
      intro hmf
      rw [hm'] at hmf
      cases hmf
  have hdir1 : fs1.isdir c.directory = true := hjdir c.directory invF3
  refine ⟨persistAdds c (reorder pendAdd) items', fs1, effs1, hupdate1, ?_, ?_⟩
  · intro i' hi' hm
    exact (hclass i' hi').1 hm
  · intro create' promptYes' now' reorder' hre'
    have hmids2 : matchedIds c ⟨persistAdds c (reorder pendAdd) items', lib.albums⟩
        = matchedIds c lib := rfl
    have hid2 : c.runItems (matchedIds c lib) now' (persistAdds c (reorder pendAdd) items')
        fs1 [] [] = (persistAdds c (reorder pendAdd) items', fs1, [], [], none) :=
      runItems_id c (matchedIds c lib) now' fs1 _ [] []
        (fun j hj => (hclass j hj).2)
    have hre2 : reorder' [] = [] := (hre' []).eq_nil
    unfold External.update
    have hcond : (!fs1.isdir c.directory && !c.ask_create create' promptYes') = false := by
      rw [hdir1]
      rfl
    rw [hcond]
    simp only [Bool.false_eq_true, if_false]
    rw [hmids2, hid2]
    simp only []
    rw [hre2]
    simp [External.runJobs]

/-- The C3 witness configuration: match-all query, destination
`alt/<id>.mp3`. -/
def cC3 : External :=
  ⟨"alt.c3", fun _ => true, fun _ => false, [".jpg", ".jpeg", ".png"], true, true,
    ["alt"], fun i => [toString i.id ++ ".mp3"]⟩

/-- The C3 witness library: an untracked matched item (ADD) and a matched
item recorded at a stale location (MOVE). -/
def libC3 : Lib :=
  ⟨[⟨1, ["lib", "a.mp3"], 320, "MP3", []⟩,
    ⟨2, ["lib", "b.mp3"], 320, "MP3", [("alt.c3", Value.vbytes ["alt", "old.mp3"])]⟩], []⟩

/-- The C3 witness filesystem. -/
def fsC3 : FS :=
  ⟨[(["lib", "a.mp3"], 5), (["lib", "b.mp3"], 6), (["alt", "old.mp3"], 1)], [["alt"]]⟩

/-- Witness for C3. -/
theorem C3_witness :
    ∃ items1 fs1 effs1,
      External.update cC3 none true 10 id libC3 fsC3 = ⟨items1, fs1, effs1, none⟩
      ∧ (∀ i' ∈ items1, isMatched cC3 (matchedIds cC3 ⟨items1, libC3.albums⟩) i' = true →
          classifyOne cC3 (matchedIds cC3 ⟨items1, libC3.albums⟩) fs1 i' = .ok (some .NOOP))
      ∧ (∀ (create' : Option Bool) (promptYes' : Bool) (now' : Nat)
          (reorder' : List Item → List Item), (∀ l, (reorder' l).Perm l) →
          External.update cC3 create' promptYes' now' reorder' ⟨items1, libC3.albums⟩ fs1
            = ⟨items1, fs1, [], none⟩) :=
  C3_update_idempotent cC3 libC3 fsC3 10 none true id (fun l => List.Perm.refl l)
    ⟨by decide, of_decide_eq_true rfl, by decide, of_decide_eq_true rfl, by decide,
     of_decide_eq_true rfl, by decide, of_decide_eq_true rfl, by decide,
     of_decide_eq_true rfl, by decide, of_decide_eq_true rfl, by decide,
     of_decide_eq_true rfl, by decide, of_decide_eq_true rfl, by decide,
     fun i a => rfl, fun i a => rfl, of_decide_eq_true rfl, by decide⟩

end Alt
